import Mathlib

/-!
Verification development for the POI cross-source matching pipeline.

The repository's matching core consists of:
* a text normalizer (`clean_name`, `extract_prinmary_str`),
* a spatial candidate finder (`search_spatial_candidates`),
* a name matcher (`match_by_name`),
* an address scorer (`address_score_check`),
* a category semantic scorer (`calculate_similarity_check`).

External library calls (rapidfuzz scorers, the KD-tree nearest-neighbour
query, the sentence embedding model) are represented parametrically or by
their documented input/output behaviour; everything the repository itself
computes is translated directly from the Python sources.
-/

namespace POI

/-! ### Generic helpers -/

/-- Last-wins association lookup, modelling a Python dict built by
`set_index(..)[..].to_dict()` (later rows with the same key overwrite
earlier ones). -/
def dictLast {β : Type} (l : List (String × β)) (k : String) : Option β :=
  (l.reverse.find? (fun p => p.1 == k)).map (·.2)

/-- Insert `x` into `l`, placing it before the first element it is
strictly better than (per `lt`).  Equal elements keep their relative
order, matching a stable sort. -/
def insertSorted {α : Type} (lt : α → α → Bool) (x : α) : List α → List α
  | [] => [x]
  | y :: ys => if lt x y then x :: y :: ys else y :: insertSorted lt x ys

/-- Stable insertion sort (elements inserted left to right). -/
def isortBy {α : Type} (lt : α → α → Bool) (l : List α) : List α :=
  l.foldl (fun acc x => insertSorted lt x acc) []

/-! ### Text normalizer: `clean_name` (src/2.match_func/match_by_name.py)

The Python function works on unicode strings and delegates character
classification to `unicodedata` and `re`.  We embed the character-level
facts as explicit tables covering the characters exercised in this
development; all other characters behave as unexceptional word or
non-word characters per the fragments below. -/

/-- Fragment of Python's `re` word-character class `\w` (unicode mode):
ASCII alphanumerics, the underscore, and CJK ideographs (e.g. '中',
U+4E2D, which Python's `\w` matches).  Accented Latin letters are also
word characters in Python but never reach a boundary test in this
development, because they are either decomposed by NFKD or absent from
the inputs considered. -/
def pyWordChar (c : Char) : Bool :=
  ((65 ≤ c.toNat && c.toNat ≤ 90) || (97 ≤ c.toNat && c.toNat ≤ 122)
    || (48 ≤ c.toNat && c.toNat ≤ 57) || c.toNat == 95
    || (0x4E00 ≤ c.toNat && c.toNat ≤ 0x9FFF))

/-- Fragment of Python's `\s` (and `str.strip`) whitespace class. -/
def isSpaceChar (c : Char) : Bool :=
  c.toNat == 32 || c.toNat == 9 || c.toNat == 10 || c.toNat == 13
    || c.toNat == 11 || c.toNat == 12

/-- Fragment of `unicodedata.combining`: the Combining Diacritical
Marks block U+0300–U+036F. -/
def isCombining (c : Char) : Bool :=
  0x300 ≤ c.toNat && c.toNat ≤ 0x36F

/-- Fragment of the NFKD decomposition table (`unicodedata.normalize
("NFKD", ·)`) covering accented characters used here; every other
character in scope decomposes to itself. -/
def nfkdChar (c : Char) : List Char :=
  if c = 'é' then ['e', '́']
  else if c = 'ñ' then ['n', '̃']
  else if c = 'ç' then ['c', '̧']
  else [c]

/-- Python `str.upper` at character level: ASCII lower case maps to
upper case, 'ß' expands to "SS", everything else in scope is fixed. -/
def pyUpper (c : Char) : List Char :=
  if 97 ≤ c.toNat && c.toNat ≤ 122 then [c.toUpper]
  else if c = 'ß' then ['S', 'S']
  else [c]

/-- Scanner for `re.sub(r"\([^)]*\)", "", s)`.  When `pending = some
acc`, the scan is inside a potential match whose consumed characters
(starting with the '(') are held reversed in `acc`; a ')' completes
the match (everything is dropped), while end of input restores the
consumed characters (the regex cannot match without a ')'). -/
def removeParensAux : Option (List Char) → List Char → List Char
  | none, [] => []
  | some acc, [] => acc.reverse
  | none, c :: rest =>
    if c = '(' then removeParensAux (some [c]) rest
    else c :: removeParensAux none rest
  | some acc, c :: rest =>
    if c = ')' then removeParensAux none rest
    else removeParensAux (some (c :: acc)) rest

/-- `re.sub(r"\([^)]*\)", "", s)`: each '(' followed (possibly after
non-')' characters) by a ')' is removed together with everything up to
and including that first ')'; a '(' with no later ')' stays. -/
def removeParens (l : List Char) : List Char :=
  removeParensAux none l

/-- `re` word boundary test on the left of the current position: the
previous character (if any) must be a non-word character. -/
def atBoundaryL (p : Option Char) : Bool :=
  match p with
  | none => true
  | some q => !pyWordChar q

/-- `re` word boundary test on the right of a word character: the next
character (if any) must be a non-word character. -/
def atBoundaryR (l : List Char) : Bool :=
  match l with
  | [] => true
  | c :: _ => !pyWordChar c

/-- `re.sub(r"\b'S\b", "", s)`: removes `'S` when preceded by a word
character and followed by a non-word character or the end.  The first
argument carries the character preceding the scan position in the
original string (matches are found on the original string, left to
right, non-overlapping). -/
def subPoss : Option Char → List Char → List Char
  | _, [] => []
  | p, '\'' :: 'S' :: rest2 =>
    if (match p with | some q => pyWordChar q | none => false) && atBoundaryR rest2
    then subPoss (some 'S') rest2
    else '\'' :: 'S' :: subPoss (some 'S') rest2
  | _, c :: rest => c :: subPoss (some c) rest

/-- `re.sub(r"\bS\b", "", s)`: removes each standalone `S` (a word
boundary on both sides). -/
def subBareS : Option Char → List Char → List Char
  | _, [] => []
  | p, c :: rest =>
    if c = 'S' && atBoundaryL p && atBoundaryR rest then subBareS (some c) rest
    else c :: subBareS (some c) rest

/-- `s.encode("ascii", errors="ignore").decode()`: drop non-ASCII. -/
def asciiFilter (l : List Char) : List Char :=
  l.filter (fun c => c.toNat < 128)

/-- `re.sub(r"[^\w\s]", " ", s)`: non-word, non-space characters become
a space. -/
def replNonWord (l : List Char) : List Char :=
  l.map (fun c => if pyWordChar c || isSpaceChar c then c else ' ')

/-- `re.sub(r"\s+", " ", s)`: each maximal whitespace run becomes one
space.  The flag records whether the scan position is inside a run. -/
def collapseWs : Bool → List Char → List Char
  | _, [] => []
  | inRun, c :: rest =>
    if isSpaceChar c then
      if inRun then collapseWs true rest else ' ' :: collapseWs true rest
    else c :: collapseWs false rest

/-- Right strip: drop trailing whitespace. -/
def rstripList : List Char → List Char
  | [] => []
  | c :: rest =>
    let r := rstripList rest
    if r.isEmpty && isSpaceChar c then [] else c :: r

/-- `str.strip()`: drop leading and trailing whitespace. -/
def pyStrip (l : List Char) : List Char :=
  rstripList (l.dropWhile isSpaceChar)

/-- Steps (1)–(2) of `clean_name`: NFKD-decompose, drop combining
marks, uppercase. -/
def normUpper (l : List Char) : List Char :=
  ((l.flatMap nfkdChar).filter (fun c => !isCombining c)).flatMap pyUpper

/-- `clean_name` from src/2.match_func/match_by_name.py on character
lists: decompose and drop accents, uppercase, strip parentheticals,
remove `'S` and standalone `S`, drop non-ASCII, replace other
punctuation by spaces, collapse whitespace, strip. -/
def cleanList (l : List Char) : List Char :=
  pyStrip (collapseWs false (replNonWord (asciiFilter
    (subBareS none (subPoss none (removeParens (normUpper l)))))))

/-- `clean_name` (Name Matcher version).  A non-string input (`None` /
`NaN`, modelled as `none`) yields the empty string. -/
def clean_name : Option String → String
  | none => ""
  | some s => String.mk (cleanList s.data)

/-- `clean_name` from src/address_score_check.py: identical to the Name
Matcher's on character lists except that the two possessive-marker
substitutions (`\b'S\b`, `\bS\b`) are absent. -/
def cleanListAddr (l : List Char) : List Char :=
  pyStrip (collapseWs false (replNonWord (asciiFilter
    (removeParens (normUpper l)))))

/-- `clean_name` (Address Scorer version). -/
def address_clean_name : Option String → String
  | none => ""
  | some s => String.mk (cleanListAddr s.data)

/-! ### `extract_prinmary_str` -/

/-- Python `str.split()`: split on whitespace runs, no empty tokens.
`cur` is the current token, reversed. -/
def splitAux : List Char → List Char → List (List Char)
  | cur, [] => if cur.isEmpty then [] else [cur.reverse]
  | cur, c :: rest =>
    if isSpaceChar c then
      if cur.isEmpty then splitAux [] rest else cur.reverse :: splitAux [] rest
    else splitAux (c :: cur) rest

/-- `str.split()` on strings. -/
def pySplit (s : String) : List String :=
  (splitAux [] s.data).map String.mk

/-- `extract_prinmary_str` from src/2.match_func/match_by_name.py.  The
module-level constant `NON_PRIMARY_TOKENS` is not part of the sources,
so the exclusion set is a parameter. -/
def extract_prinmary_str (excl : List String) (name : String) : String :=
  let tokens := pySplit name
  let core := tokens.filter (fun t => !excl.contains t)
  if core.length = 1 ∧ (core.headD "").length < 3 then name
  else if !core.isEmpty then String.intercalate " " core
  else name

/-- Modelled from the spec (section 4.1, `extract_primary`): split on
whitespace, drop excluded tokens; one remaining token shorter than 3
characters or nothing remaining returns the original input; otherwise
the remaining tokens joined by single spaces. -/
def extract_primary_spec (excl : List String) (name : String) : String :=
  match (pySplit name).filter (fun t => !excl.contains t) with
  | [] => name
  | [t] => if t.length < 3 then name else t
  | ts => String.intercalate " " ts

/-! ### Name Matcher: `match_by_name` (src/2.match_func/match_by_name.py)

The four rapidfuzz scorers (`fuzz.WRatio`, `fuzz.partial_ratio`,
`fuzz.token_sort_ratio`, `fuzz.token_set_ratio`) are external library
functions; the embedding is parametric in them.  Their real outputs are
floats on the 0–100 scale and are represented in `ℤ` (the claims are
structural and do not depend on fractional values). -/

structure RefRow where
  name : Option String
  cand_ids : List String
  cand_dist_m : List ℤ
deriving DecidableEq

structure CmpRec where
  id : String
  name : Option String
  cat_main : Option String
deriving DecidableEq

structure MatchResult where
  matched_id : Option String
  name_score : Option ℤ
  location_distance : Option ℤ
  matched_name : Option String
  matched_cat_main : Option String
deriving DecidableEq

/-- `rapidfuzz.process.extract(query, cand_names, scorer=fuzz.WRatio,
limit=limit)` with no score cutoff: the `limit` highest-scoring
candidates as `(choice, score, index)` triples, in descending score
order, ties by original position. -/
def process_extract (wr : String → String → ℤ) (query : String)
    (candNames : List String) (limit : ℕ) : List (String × ℤ × ℕ) :=
  let scored := candNames.enum.map (fun p => (p.2, wr query p.2, p.1))
  (isortBy (fun a b => decide (b.2.1 < a.2.1)) scored).take limit

/-- The combined score of one extracted triple: the maximum of its
WRatio score and the three other scorers applied to the query and the
candidate's cleaned name (lines 88–94 of the source). -/
def combined4 (pr ts tset : String → String → ℤ) (query : String)
    (m : String × ℤ × ℕ) : ℤ :=
  max (max m.2.1 (pr query m.1)) (max (ts query m.1) (tset query m.1))

/-- The selection loop over `top_matches`: running best score starts at
`-1`, a strictly greater combined score replaces the current best
(so ties keep the earliest triple). -/
def pickBest {α : Type} (g : α → ℤ) (l : List α) : ℤ × Option α :=
  l.foldl (fun acc m => if g m > acc.1 then (g m, some m) else acc) (-1, none)

/-- Per-row body of the `match_by_name` loop.  `idNameClean`,
`idNameRaw` and `idCat` are the three precomputed dictionaries.  The
Python guard is `not isinstance(query, str) or not row["cand_ids"]`;
`clean_name`/`extract_prinmary_str` always return a string, so only the
empty-candidate-list disjunct can fire.  In the accept branch,
`best.2` is `some _` whenever `top_matches` is non-empty and the
scorers are non-negative (as the rapidfuzz ones are), so the `getD`
defaults are unreachable there. -/
def match_row (wr pr ts tset : String → String → ℤ)
    (idNameClean : String → Option String)
    (idNameRaw : String → Option (Option String))
    (idCat : String → Option (Option String))
    (excl : List String) (threshold : ℤ) (row : RefRow) : MatchResult :=
  let query := extract_prinmary_str excl (clean_name row.name)
  if row.cand_ids.isEmpty then ⟨none, none, none, none, none⟩
  else
    let cand_names := row.cand_ids.map (fun cid => (idNameClean cid).getD "")
    let top_matches := process_extract wr query cand_names 5
    let best := pickBest (combined4 pr ts tset query) top_matches
    let score := best.1
    let pos := (best.2.map (fun m => m.2.2)).getD 0
    if score ≥ threshold then
      { matched_id := some (row.cand_ids.getD pos "")
        name_score := some score
        location_distance := some (row.cand_dist_m.getD pos 0)
        matched_name := (idNameRaw (row.cand_ids.getD pos "")).getD none
        matched_cat_main := (idCat (row.cand_ids.getD pos "")).getD none }
    else ⟨none, some score, none, none, none⟩

/-- `match_by_name`: precompute the three id dictionaries from the
comparison set (last occurrence wins, as for a Python dict), then run
the per-row matching.  The result pairs each reference row with its
added match columns. -/
def match_by_name (wr pr ts tset : String → String → ℤ) (excl : List String)
    (reference_gdf : List RefRow) (compared_gdf : List CmpRec)
    (threshold : ℤ) : List (RefRow × MatchResult) :=
  let id_to_name_clean :=
    dictLast (compared_gdf.map (fun c => (c.id, extract_prinmary_str excl (clean_name c.name))))
  let id_to_name_raw := dictLast (compared_gdf.map (fun c => (c.id, c.name)))
  let id_to_cat := dictLast (compared_gdf.map (fun c => (c.id, c.cat_main)))
  reference_gdf.map
    (fun r => (r, match_row wr pr ts tset id_to_name_clean id_to_name_raw id_to_cat excl threshold r))

/-! ### Spatial Candidate Finder: `search_spatial_candidates`
(src/2.match_func/search_spatial_candidates.py)

Coordinates are planar integers (the code reprojects to a planar CRS
before querying).  Euclidean distances are represented by their
squares, an order- and boundary-preserving encoding (`d ≤ max_dist ⟺
d² ≤ max_dist²` for non-negative `max_dist`), so `maxDist2` stands for
`max_dist**2`. -/

structure CmpPt where
  id : String
  x : ℤ
  y : ℤ
deriving DecidableEq

/-- Squared Euclidean distance. -/
def dist2 (px py qx qy : ℤ) : ℤ :=
  (px - qx) * (px - qx) + (py - qy) * (py - qy)

/-- Models `scipy.spatial.cKDTree.query(·, k=min(k, n))`: the
`min(k, n)` nearest comparison points as (squared distance, index)
pairs in ascending distance order (distance ties by index). -/
def kdtree_query (cmp : List CmpPt) (k : ℕ) (px py : ℤ) : List (ℤ × ℕ) :=
  let scored := cmp.enum.map (fun p => (dist2 px py p.2.x p.2.y, p.1))
  (isortBy (fun a b => decide (a.1 < b.1 ∨ (a.1 = b.1 ∧ a.2 < b.2))) scored).take (min k cmp.length)

/-- Per-row body of the candidate loop (lines 43–53 of the source):
keep the neighbours with `d <= max_dist` and collect their ids and
distances. -/
def search_row (cmp : List CmpPt) (k : ℕ) (maxDist2 px py : ℤ) :
    List String × List ℤ :=
  let near := kdtree_query cmp k px py
  let kept := near.filter (fun di => di.1 ≤ maxDist2)
  (kept.map (fun di => ((cmp.get? di.2).map (fun c => c.id)).getD ""),
   kept.map (fun di => di.1))

/-- `search_spatial_candidates`: attach `cand_ids` and `cand_dist_m`
to every reference point. -/
def search_spatial_candidates (reference_gdf : List (ℤ × ℤ))
    (compared_gdf : List CmpPt) (k : ℕ) (maxDist2 : ℤ) :
    List ((ℤ × ℤ) × List String × List ℤ) :=
  reference_gdf.map (fun p => (p, search_row compared_gdf k maxDist2 p.1 p.2))

/-! ### Address Scorer: `address_score_check`
(src/address_score_check.py) -/

structure AddrRow where
  matched_id : Option String
  addr_simple : Option String
deriving DecidableEq

structure AddrResult where
  address_score : Option ℤ
  matched_address : Option String
deriving DecidableEq

/-- `address_score_check`: rows without a matched id get null score and
null matched address; otherwise the matched comparison record's cleaned
address is looked up by id (`dict.get`: `none` when absent), surfaced
when non-empty, and the four-scorer maximum is computed when both
cleaned addresses are non-empty strings.  (`int(...)` truncation is
absorbed by the integer score representation.) -/
def address_score_check (wr pr ts tset : String → String → ℤ)
    (reference_gdf : List AddrRow) (compared_gdf : List (String × Option String)) :
    List (AddrRow × AddrResult) :=
  let id_to_addr := dictLast (compared_gdf.map (fun c => (c.1, address_clean_name c.2)))
  reference_gdf.map fun row =>
    match row.matched_id with
    | none => (row, ⟨none, none⟩)
    | some mid =>
      let addr_ref := address_clean_name row.addr_simple
      let addr_cmp := id_to_addr mid
      let matched_address : Option String :=
        match addr_cmp with
        | some a => if (pyStrip a.data).isEmpty then none else some a
        | none => none
      let score : Option ℤ :=
        if (pyStrip addr_ref.data).isEmpty then none
        else
          match addr_cmp with
          | none => none
          | some a =>
            if (pyStrip a.data).isEmpty then none
            else some (max (max (wr addr_ref a) (pr addr_ref a))
                           (max (ts addr_ref a) (tset addr_ref a)))
      (row, ⟨score, matched_address⟩)

/-! ### Category Semantic Scorer: `calculate_similarity_check`
(src/2.match_func/calculate_similarity_check.py)

The sentence-embedding model and cosine similarity are external; `sim`
stands for `cosine_similarity(encode s, encode t)` (a float in [-1,1],
represented parametrically in `ℤ`). -/

structure CatRow where
  matched_id : Option String
  primary_type : Option String
  matched_cat_main : Option String
  category_sim : Option ℤ
deriving DecidableEq

/-- The gatekeeper mask of line 21: `df[id_col].notna() &
(df[id_col].astype(str).str.strip() != "")`. -/
def gatekeeper (r : CatRow) : Bool :=
  match r.matched_id with
  | none => false
  | some i => !(pyStrip i.data).isEmpty

/-- Effect of `calculate_similarity_check` on one row: non-gatekept
rows keep the initial `NaN`; gatekept rows with an originally missing
(`NaN`) category on either side get `NaN` (step 6); the rest get the
similarity of the two category strings (`fillna("")` only affects rows
already marked missing). -/
def calc_sim_row (sim : String → String → ℤ) (r : CatRow) : CatRow :=
  { r with
    category_sim :=
      if gatekeeper r then
        if r.primary_type.isNone || r.matched_cat_main.isNone then none
        else some (sim (r.primary_type.getD "") (r.matched_cat_main.getD ""))
      else none }

/-- `calculate_similarity_check`: recompute the `category_sim` column
for every row (the column is first set to all-`NaN`, then filled on the
gatekept rows). -/
def calculate_similarity_check (sim : String → String → ℤ) (df : List CatRow) : List CatRow :=
  df.map (calc_sim_row sim)

/-! ### Object-level call semantics (for the frame claim)

Each `*_call` returns the pair (state of the caller's argument object
after the call, returned object), hand-translated from the Python
aliasing: `search_spatial_candidates`, `match_by_name` and
`address_score_check` do `result = reference_gdf.copy()` and add
columns to the copy, so the argument is unchanged;
`calculate_similarity_check` assigns columns directly on its argument
(`df[result_col] = np.nan; df.loc[mask, result_col] = scores;
return df`), so the argument aliases the returned, modified object. -/

def search_spatial_candidates_call (reference_gdf : List (ℤ × ℤ))
    (compared_gdf : List CmpPt) (k : ℕ) (maxDist2 : ℤ) :
    List (ℤ × ℤ) × List ((ℤ × ℤ) × List String × List ℤ) :=
  (reference_gdf, search_spatial_candidates reference_gdf compared_gdf k maxDist2)

def match_by_name_call (wr pr ts tset : String → String → ℤ) (excl : List String)
    (reference_gdf : List RefRow) (compared_gdf : List CmpRec) (threshold : ℤ) :
    List RefRow × List (RefRow × MatchResult) :=
  (reference_gdf, match_by_name wr pr ts tset excl reference_gdf compared_gdf threshold)

def address_score_check_call (wr pr ts tset : String → String → ℤ)
    (reference_gdf : List AddrRow) (compared_gdf : List (String × Option String)) :
    List AddrRow × List (AddrRow × AddrResult) :=
  (reference_gdf, address_score_check wr pr ts tset reference_gdf compared_gdf)

def calculate_similarity_check_call (sim : String → String → ℤ) (df : List CatRow) :
    List CatRow × List CatRow :=
  (calculate_similarity_check sim df, calculate_similarity_check sim df)

/-! ### Concrete sample data used by witnesses and counterexamples -/

/-- A degenerate scorer (all scores 0), standing in for any concrete
rapidfuzz scorer value pattern; rapidfuzz itself returns 0 for an empty
query string. -/
def zScore : String → String → ℤ := fun _ _ => 0

/-- A degenerate similarity (all cosine values 1). -/
def oneSim : String → String → ℤ := fun _ _ => 1

/-! ### Generic lemmas about the helpers -/

theorem insertSorted_perm {α : Type} (lt : α → α → Bool) (x : α) (l : List α) :
    (insertSorted lt x l).Perm (x :: l) := by
  induction l with
  | nil => exact List.Perm.refl _
  | cons y ys ih =>
    by_cases h : lt x y
    · simp [insertSorted, h]
    · simp only [insertSorted, h, if_false, Bool.false_eq_true]
      exact (ih.cons y).trans (List.Perm.swap x y ys)

theorem isortBy_foldl_perm {α : Type} (lt : α → α → Bool) :
    ∀ (l acc : List α),
      (l.foldl (fun acc x => insertSorted lt x acc) acc).Perm (acc ++ l) := by
  intro l
  induction l with
  | nil => intro acc; simp
  | cons x xs ih =>
    intro acc
    have h1 := ih (insertSorted lt x acc)
    have h2 : (insertSorted lt x acc ++ xs).Perm (acc ++ x :: xs) := by
      refine ((insertSorted_perm lt x acc).append_right xs).trans ?_
      exact List.perm_middle.symm
    simpa using h1.trans h2

theorem isortBy_perm {α : Type} (lt : α → α → Bool) (l : List α) :
    (isortBy lt l).Perm l := by
  simpa using isortBy_foldl_perm lt l []

theorem mem_insertSorted {α : Type} {lt : α → α → Bool} {x a : α} {l : List α} :
    a ∈ insertSorted lt x l ↔ a = x ∨ a ∈ l := by
  rw [(insertSorted_perm lt x l).mem_iff]
  simp

theorem pairwise_insertSorted {α : Type} {lt : α → α → Bool}
    (hasym : ∀ a b, lt a b = true → lt b a = false)
    (htrans : ∀ a b c, lt b a = false → lt c b = false → lt c a = false)
    (x : α) {l : List α} (hl : List.Pairwise (fun a b => lt b a = false) l) :
    List.Pairwise (fun a b => lt b a = false) (insertSorted lt x l) := by
  induction l with
  | nil => simp [insertSorted]
  | cons y ys ih =>
    rcases List.pairwise_cons.mp hl with ⟨hy, hys⟩
    by_cases h : lt x y
    · simp only [insertSorted, h, if_true]
      refine List.Pairwise.cons ?_ hl
      intro z hz
      rcases List.mem_cons.mp hz with rfl | hz
      · exact hasym _ _ h
      · exact htrans _ _ _ (hasym _ _ h) (hy z hz)
    · simp only [insertSorted, h, if_false, Bool.false_eq_true]
      refine List.Pairwise.cons ?_ (ih hys)
      intro z hz
      rcases mem_insertSorted.mp hz with rfl | hz
      · exact Bool.eq_false_iff.mpr h
      · exact hy z hz

theorem pairwise_isortBy {α : Type} {lt : α → α → Bool}
    (hasym : ∀ a b, lt a b = true → lt b a = false)
    (htrans : ∀ a b c, lt b a = false → lt c b = false → lt c a = false)
    (l : List α) :
    List.Pairwise (fun a b => lt b a = false) (isortBy lt l) := by
  suffices h : ∀ (l acc : List α), List.Pairwise (fun a b => lt b a = false) acc →
      List.Pairwise (fun a b => lt b a = false)
        (l.foldl (fun acc x => insertSorted lt x acc) acc) by
    exact h l [] (List.Pairwise.nil)
  intro l
  induction l with
  | nil => intro acc h; simpa using h
  | cons x xs ih =>
    intro acc hacc
    exact ih _ (pairwise_insertSorted hasym htrans x hacc)

theorem length_isortBy {α : Type} (lt : α → α → Bool) (l : List α) :
    (isortBy lt l).length = l.length :=
  (isortBy_perm lt l).length_eq

/-- Behaviour of the selection fold of `match_by_name`: either nothing
beat the initial score and the accumulator is unchanged, or the result
is the first element attaining the strict maximum of the scores above
the initial one. -/
theorem foldBest_spec {α : Type} (g : α → ℤ) :
    ∀ (l : List α) (bs : ℤ) (bp : Option α),
      (l.foldl (fun acc m => if g m > acc.1 then (g m, some m) else acc) (bs, bp) = (bs, bp)
        ∧ ∀ m ∈ l, g m ≤ bs) ∨
      (∃ l₁ m l₂, l = l₁ ++ m :: l₂ ∧
        l.foldl (fun acc m => if g m > acc.1 then (g m, some m) else acc) (bs, bp) = (g m, some m)
        ∧ bs < g m ∧ (∀ x ∈ l₁, g x < g m) ∧ (∀ x ∈ l₂, g x ≤ g m)) := by
  intro l
  induction l with
  | nil => intro bs bp; left; exact ⟨rfl, by simp⟩
  | cons x xs ih =>
    intro bs bp
    by_cases hx : g x > bs
    · rcases ih (g x) (some x) with ⟨heq, hall⟩ | ⟨l₁, m, l₂, hl, heq, hlt, h1, h2⟩
      · right
        exact ⟨[], x, xs, by simp, by simpa [hx] using heq, hx, by simp, hall⟩
      · right
        refine ⟨x :: l₁, m, l₂, by simp [hl], by simpa [hx] using heq,
          lt_trans hx hlt, ?_, h2⟩
        intro y hy
        rcases List.mem_cons.mp hy with rfl | hy
        · exact hlt
        · exact h1 y hy
    · rcases ih bs bp with ⟨heq, hall⟩ | ⟨l₁, m, l₂, hl, heq, hlt, h1, h2⟩
      · left
        refine ⟨by simpa [hx] using heq, ?_⟩
        intro m hm
        rcases List.mem_cons.mp hm with rfl | hm
        · omega
        · exact hall m hm
      · right
        refine ⟨x :: l₁, m, l₂, by simp [hl], by simpa [hx] using heq, hlt, ?_, h2⟩
        intro y hy
        rcases List.mem_cons.mp hy with rfl | hy
        · omega
        · exact h1 y hy

/-- Every triple produced by `process_extract` carries as its middle
component the WRatio score of the query against its candidate name. -/
theorem process_extract_score {wr : String → String → ℤ} {q : String}
    {names : List String} {lim : ℕ} {m : String × ℤ × ℕ}
    (hm : m ∈ process_extract wr q names lim) : m.2.1 = wr q m.1 := by
  unfold process_extract at hm
  have h1 : m ∈ isortBy (fun a b => decide (b.2.1 < a.2.1))
      (names.enum.map (fun p => (p.2, wr q p.2, p.1))) :=
    (List.take_sublist _ _).mem hm
  have h2 : m ∈ names.enum.map (fun p => (p.2, wr q p.2, p.1)) :=
    (isortBy_perm _ _).mem_iff.mp h1
  rcases List.mem_map.mp h2 with ⟨p, _, rfl⟩
  rfl

theorem process_extract_ne_nil {wr : String → String → ℤ} {q : String}
    {names : List String} (h : names ≠ []) :
    process_extract wr q names 5 ≠ [] := by
  unfold process_extract
  intro hcon
  rcases List.take_eq_nil_iff.mp hcon with h5 | h0
  · exact absurd h5 (by norm_num)
  · have hlen := length_isortBy (fun a b : String × ℤ × ℕ => decide (b.2.1 < a.2.1))
      (names.enum.map (fun p => (p.2, wr q p.2, p.1)))
    rw [h0] at hlen
    simp only [List.length_nil, List.length_map, List.enum_length] at hlen
    exact h (List.length_eq_zero.mp hlen.symm)

/-! ### Canonical form of `clean_name` outputs

`clean_name` on an all-ASCII input produces a string whose characters
are non-lowercase ASCII word characters or single spaces, with no
leading/trailing space, no double space and no standalone `S` token;
such strings are fixed points of the whole pipeline.  This underlies
the idempotence analysis (claim C6). -/

/-- All characters ASCII. -/
def allAscii (l : List Char) : Bool :=
  l.all (fun c => c.toNat < 128)

/-- Scanning analogue of the `\bS\b` match: does the list, scanned with
`p` as the preceding character, contain a standalone `S`? -/
def hasLoneS : Option Char → List Char → Bool
  | _, [] => false
  | p, c :: rest =>
    (c = 'S' && atBoundaryL p && atBoundaryR rest) || hasLoneS (some c) rest

/-- No two adjacent whitespace characters. -/
def noDoubleSpace : List Char → Bool
  | [] => true
  | [_] => true
  | a :: b :: rest => !(isSpaceChar a && isSpaceChar b) && noDoubleSpace (b :: rest)

/-- First character (if any) is not whitespace. -/
def headNotSpace : List Char → Bool
  | [] => true
  | c :: _ => !isSpaceChar c

/-- Last character (if any) is not whitespace. -/
def lastNotSpace (l : List Char) : Bool :=
  match l.getLast? with
  | none => true
  | some c => !isSpaceChar c

/-- A character that survives the pipeline: ASCII, and either a
non-lowercase word character or a plain space. -/
def canonChar (c : Char) : Bool :=
  c.toNat < 128 && ((pyWordChar c && !(97 ≤ c.toNat && c.toNat ≤ 122)) || c = ' ')

/-- Canonical strings: exactly the shape of `clean_name` outputs on
ASCII inputs. -/
def canonical (l : List Char) : Bool :=
  l.all canonChar && noDoubleSpace l && headNotSpace l && lastNotSpace l
    && !hasLoneS none l

theorem pyWordChar_iff (c : Char) : pyWordChar c = true ↔
    (65 ≤ c.toNat ∧ c.toNat ≤ 90) ∨ (97 ≤ c.toNat ∧ c.toNat ≤ 122)
    ∨ (48 ≤ c.toNat ∧ c.toNat ≤ 57) ∨ c.toNat = 95
    ∨ (0x4E00 ≤ c.toNat ∧ c.toNat ≤ 0x9FFF) := by
  simp [pyWordChar]
  tauto

theorem isSpaceChar_iff (c : Char) : isSpaceChar c = true ↔
    c.toNat = 32 ∨ c.toNat = 9 ∨ c.toNat = 10 ∨ c.toNat = 13
    ∨ c.toNat = 11 ∨ c.toNat = 12 := by
  simp [isSpaceChar]
  tauto

theorem word_not_space {c : Char} (h : pyWordChar c = true) :
    isSpaceChar c = false := by
  cases hs : isSpaceChar c
  · rfl
  · have h1 := (pyWordChar_iff c).mp h
    have h2 := (isSpaceChar_iff c).mp hs
    omega

theorem canonChar_props {c : Char} (h : canonChar c = true) :
    c.toNat < 128 ∧ (pyWordChar c = true ∨ c = ' ')
      ∧ ¬(97 ≤ c.toNat ∧ c.toNat ≤ 122) := by
  simp only [canonChar, Bool.and_eq_true, Bool.or_eq_true, decide_eq_true_eq,
    Bool.not_eq_true', Bool.and_eq_false_iff, decide_eq_false_iff_not] at h
  rcases h with ⟨ha, hw | hsp⟩
  · refine ⟨ha, Or.inl hw.1, ?_⟩
    rcases hw.2 with h' | h' <;> omega
  · subst hsp
    exact ⟨by decide, Or.inr rfl, by decide⟩

theorem canonChar_ne_paren {c : Char} (h : canonChar c = true) : c ≠ '(' := by
  intro hc
  subst hc
  exact absurd h (by decide)

theorem canonChar_ne_quote {c : Char} (h : canonChar c = true) : c ≠ '\'' := by
  intro hc
  subst hc
  exact absurd h (by decide)

/-! #### Identity of each stage on canonical input -/

theorem flatMap_id_of {f : Char → List Char} :
    ∀ {l : List Char}, (∀ c ∈ l, f c = [c]) → l.flatMap f = l := by
  intro l
  induction l with
  | nil => intro _; rfl
  | cons c rest ih =>
    intro h
    simp only [List.flatMap_cons, h c (List.mem_cons_self _ _)]
    rw [show rest.flatMap f = rest from ih (fun d hd => h d (List.mem_cons_of_mem _ hd))]
    rfl

theorem nfkdChar_ascii {c : Char} (h : c.toNat < 128) : nfkdChar c = [c] := by
  unfold nfkdChar
  split_ifs with h1 h2 h3
  · subst h1; exact absurd h (by decide)
  · subst h2; exact absurd h (by decide)
  · subst h3; exact absurd h (by decide)
  · rfl

theorem isCombining_ascii {c : Char} (h : c.toNat < 128) :
    isCombining c = false := by
  simp only [isCombining, Bool.and_eq_false_iff, decide_eq_false_iff_not]
  omega

theorem pyUpper_fix {c : Char} (h : c.toNat < 128)
    (hl : ¬(97 ≤ c.toNat ∧ c.toNat ≤ 122)) : pyUpper c = [c] := by
  unfold pyUpper
  split_ifs with h1 h2
  · simp only [Bool.and_eq_true, decide_eq_true_eq] at h1
    exact absurd h1 hl
  · subst h2; exact absurd h (by decide)
  · rfl

theorem normUpper_id {l : List Char} (ha : ∀ c ∈ l, c.toNat < 128)
    (hnl : ∀ c ∈ l, ¬(97 ≤ c.toNat ∧ c.toNat ≤ 122)) : normUpper l = l := by
  unfold normUpper
  rw [flatMap_id_of (fun c hc => nfkdChar_ascii (ha c hc))]
  rw [List.filter_eq_self.mpr (fun c hc => by simp [isCombining_ascii (ha c hc)])]
  exact flatMap_id_of (fun c hc => pyUpper_fix (ha c hc) (hnl c hc))

theorem removeParensAux_id {l : List Char} (h : ∀ c ∈ l, c ≠ '(') :
    removeParensAux none l = l := by
  induction l with
  | nil => rfl
  | cons c rest ih =>
    simp only [removeParensAux, h c (List.mem_cons_self _ _), if_false]
    rw [ih (fun d hd => h d (List.mem_cons_of_mem _ hd))]

theorem subPoss_cons_ne (p : Option Char) {c : Char} (hc : c ≠ '\'')
    (rest : List Char) : subPoss p (c :: rest) = c :: subPoss (some c) rest := by
  cases rest with
  | nil => simp [subPoss]
  | cons c2 r2 => simp [subPoss, hc]

theorem subPoss_quote_not_s (p : Option Char) {c2 : Char} (hc2 : c2 ≠ 'S')
    (r2 : List Char) :
    subPoss p ('\'' :: c2 :: r2) = '\'' :: subPoss (some '\'') (c2 :: r2) := by
  simp [subPoss, hc2]

theorem subPoss_id {l : List Char} (h : ∀ c ∈ l, c ≠ '\'') :
    ∀ p, subPoss p l = l := by
  induction l with
  | nil => intro _; rfl
  | cons c rest ih =>
    intro p
    rw [subPoss_cons_ne p (h c (List.mem_cons_self _ _)) rest,
      ih (fun d hd => h d (List.mem_cons_of_mem _ hd)) (some c)]

theorem subBareS_cons (p : Option Char) (c : Char) (rest : List Char) :
    subBareS p (c :: rest)
      = if c = 'S' && atBoundaryL p && atBoundaryR rest then subBareS (some c) rest
        else c :: subBareS (some c) rest := by
  simp [subBareS]

theorem hasLoneS_cons (p : Option Char) (c : Char) (rest : List Char) :
    hasLoneS p (c :: rest)
      = ((c = 'S' && atBoundaryL p && atBoundaryR rest) || hasLoneS (some c) rest) := by
  simp [hasLoneS]

theorem subBareS_id : ∀ {l : List Char} (p : Option Char),
    hasLoneS p l = false → subBareS p l = l := by
  intro l
  induction l with
  | nil => intro _ _; rfl
  | cons c rest ih =>
    intro p hp
    rw [hasLoneS_cons, Bool.or_eq_false_iff] at hp
    rw [subBareS_cons, hp.1, if_neg (by simp), ih (some c) hp.2]

theorem asciiFilter_id {l : List Char} (h : ∀ c ∈ l, c.toNat < 128) :
    asciiFilter l = l :=
  List.filter_eq_self.mpr (fun c hc => by simpa using h c hc)

theorem map_id_of {f : Char → Char} :
    ∀ {l : List Char}, (∀ c ∈ l, f c = c) → l.map f = l := by
  intro l
  induction l with
  | nil => intro _; rfl
  | cons c rest ih =>
    intro h
    simp only [List.map_cons, h c (List.mem_cons_self _ _)]
    rw [ih (fun d hd => h d (List.mem_cons_of_mem _ hd))]

theorem replNonWord_id {l : List Char}
    (h : ∀ c ∈ l, pyWordChar c = true ∨ c = ' ') : replNonWord l = l := by
  unfold replNonWord
  refine map_id_of (fun c hc => ?_)
  rcases h c hc with hw | hsp
  · simp [hw]
  · subst hsp; simp

theorem noDoubleSpace_tail {c : Char} {rest : List Char}
    (h : noDoubleSpace (c :: rest) = true) : noDoubleSpace rest = true := by
  cases rest with
  | nil => rfl
  | cons d t =>
    simp only [noDoubleSpace, Bool.and_eq_true] at h
    exact h.2

theorem noDoubleSpace_pair {c d : Char} {t : List Char}
    (h : noDoubleSpace (c :: d :: t) = true) :
    (isSpaceChar c && isSpaceChar d) = false := by
  simp only [noDoubleSpace, Bool.and_eq_true, Bool.not_eq_true'] at h
  exact h.1

theorem collapseWs_id : ∀ {l : List Char} (b : Bool),
    (∀ c ∈ l, pyWordChar c = true ∨ c = ' ') → noDoubleSpace l = true →
    (b = true → headNotSpace l = true) → collapseWs b l = l := by
  intro l
  induction l with
  | nil => intro b _ _ _; rfl
  | cons c rest ih =>
    intro b hchars hnd hb
    by_cases hs : isSpaceChar c = true
    · have hc : c = ' ' := by
        rcases hchars c (List.mem_cons_self _ _) with hw | hsp
        · rw [word_not_space hw] at hs; cases hs
        · exact hsp
      have hbf : b = false := by
        cases b
        · rfl
        · have := hb rfl
          simp only [headNotSpace, hs] at this
          cases this
      subst hbf
      simp only [collapseWs, hs, if_true, Bool.false_eq_true, if_false]
      rw [hc]
      congr 1
      refine ih true (fun d hd => hchars d (List.mem_cons_of_mem _ hd))
        (noDoubleSpace_tail hnd) (fun _ => ?_)
      cases rest with
      | nil => rfl
      | cons d t =>
        have := noDoubleSpace_pair hnd
        rw [hs] at this
        simp only [Bool.true_and] at this
        simp [headNotSpace, this]
    · simp only [collapseWs, hs, Bool.false_eq_true, if_false]
      rw [ih false (fun d hd => hchars d (List.mem_cons_of_mem _ hd))
        (noDoubleSpace_tail hnd) (by intro h; cases h)]

theorem dropWhile_id_of_headNotSpace {l : List Char}
    (h : headNotSpace l = true) : l.dropWhile isSpaceChar = l := by
  cases l with
  | nil => rfl
  | cons c rest =>
    simp only [headNotSpace, Bool.not_eq_true'] at h
    simp [List.dropWhile_cons, h]

theorem lastNotSpace_cons_cons (c d : Char) (t : List Char) :
    lastNotSpace (c :: d :: t) = lastNotSpace (d :: t) := by
  simp [lastNotSpace, List.getLast?_cons_cons]

theorem rstripList_cons (c : Char) (rest : List Char) :
    rstripList (c :: rest)
      = if (rstripList rest).isEmpty && isSpaceChar c then []
        else c :: rstripList rest := rfl

theorem rstripList_id : ∀ {l : List Char}, lastNotSpace l = true →
    rstripList l = l := by
  intro l
  induction l with
  | nil => intro _; rfl
  | cons c rest ih =>
    intro h
    cases rest with
    | nil =>
      simp only [lastNotSpace, List.getLast?_singleton, Bool.not_eq_true'] at h
      simp [rstripList_cons, rstripList, h]
    | cons d t =>
      rw [lastNotSpace_cons_cons] at h
      have hr := ih h
      rw [rstripList_cons, hr]
      simp

theorem pyStrip_id {l : List Char} (hh : headNotSpace l = true)
    (hl : lastNotSpace l = true) : pyStrip l = l := by
  unfold pyStrip
  rw [dropWhile_id_of_headNotSpace hh]
  exact rstripList_id hl

/-- Canonical strings are fixed points of the whole `clean_name`
pipeline. -/
theorem cleanList_id_of_canonical {l : List Char} (h : canonical l = true) :
    cleanList l = l := by
  simp only [canonical, Bool.and_eq_true, Bool.not_eq_true', List.all_eq_true] at h
  rcases h with ⟨⟨⟨⟨hall, hnd⟩, hhn⟩, hln⟩, hlo⟩
  have hA : ∀ c ∈ l, c.toNat < 128 := fun c hc => (canonChar_props (hall c hc)).1
  have hWS : ∀ c ∈ l, pyWordChar c = true ∨ c = ' ' :=
    fun c hc => (canonChar_props (hall c hc)).2.1
  have hNL : ∀ c ∈ l, ¬(97 ≤ c.toNat ∧ c.toNat ≤ 122) :=
    fun c hc => (canonChar_props (hall c hc)).2.2
  unfold cleanList removeParens
  rw [normUpper_id hA hNL,
    removeParensAux_id (fun c hc => canonChar_ne_paren (hall c hc)),
    subPoss_id (fun c hc => canonChar_ne_quote (hall c hc)) none,
    subBareS_id none hlo,
    asciiFilter_id hA,
    replNonWord_id hWS,
    collapseWs_id false hWS hnd (by intro h; cases h),
    pyStrip_id hhn hln]

/-! #### Membership (no stage invents characters other than spaces) -/

theorem subPoss_singleton (p : Option Char) (c : Char) : subPoss p [c] = [c] := by
  simp [subPoss]

theorem subPoss_quote_s (p : Option Char) (r2 : List Char) :
    subPoss p ('\'' :: 'S' :: r2)
      = if ((match p with | some q => pyWordChar q | none => false) && atBoundaryR r2)
        then subPoss (some 'S') r2
        else '\'' :: 'S' :: subPoss (some 'S') r2 := by
  simp [subPoss]

theorem mem_removeParensAux : ∀ (l : List Char) (pend : Option (List Char)) (x : Char),
    x ∈ removeParensAux pend l →
    x ∈ l ∨ (∃ acc, pend = some acc ∧ x ∈ acc) := by
  intro l
  induction l with
  | nil =>
    intro pend x hx
    cases pend with
    | none => simp [removeParensAux] at hx
    | some acc =>
      right
      exact ⟨acc, rfl, by simpa [removeParensAux, List.mem_reverse] using hx⟩
  | cons c rest ih =>
    intro pend x hx
    cases pend with
    | none =>
      by_cases hc : c = '('
      · rw [show removeParensAux none (c :: rest) = removeParensAux (some [c]) rest
            from by simp [removeParensAux, hc]] at hx
        rcases ih (some [c]) x hx with h | ⟨acc, hacc, hm⟩
        · exact Or.inl (List.mem_cons_of_mem _ h)
        · left
          obtain rfl : acc = [c] := by injection hacc with h'; exact h'.symm
          rcases List.mem_singleton.mp hm with rfl
          exact List.mem_cons_self _ _
      · rw [show removeParensAux none (c :: rest) = c :: removeParensAux none rest
            from by simp [removeParensAux, hc]] at hx
        rcases List.mem_cons.mp hx with rfl | hx
        · exact Or.inl (List.mem_cons_self _ _)
        · rcases ih none x hx with h | ⟨acc, hacc, _⟩
          · exact Or.inl (List.mem_cons_of_mem _ h)
          · cases hacc
    | some acc =>
      by_cases hc : c = ')'
      · rw [show removeParensAux (some acc) (c :: rest) = removeParensAux none rest
            from by simp [removeParensAux, hc]] at hx
        rcases ih none x hx with h | ⟨acc', hacc', _⟩
        · exact Or.inl (List.mem_cons_of_mem _ h)
        · cases hacc'
      · rw [show removeParensAux (some acc) (c :: rest)
            = removeParensAux (some (c :: acc)) rest
            from by simp [removeParensAux, hc]] at hx
        rcases ih (some (c :: acc)) x hx with h | ⟨acc', hacc', hm⟩
        · exact Or.inl (List.mem_cons_of_mem _ h)
        · obtain rfl : acc' = c :: acc := by injection hacc' with h'; exact h'.symm
          rcases List.mem_cons.mp hm with rfl | hm
          · exact Or.inl (List.mem_cons_self _ _)
          · exact Or.inr ⟨acc, rfl, hm⟩

theorem mem_removeParens {l : List Char} {x : Char} (h : x ∈ removeParens l) :
    x ∈ l := by
  rcases mem_removeParensAux l none x h with h' | ⟨_, hcon, _⟩
  · exact h'
  · cases hcon

theorem mem_subPoss_aux : ∀ (n : ℕ) (l : List Char), l.length ≤ n →
    ∀ (p : Option Char) (x : Char), x ∈ subPoss p l → x ∈ l := by
  intro n
  induction n with
  | zero =>
    intro l hl p x hx
    cases l with
    | nil => simpa [subPoss] using hx
    | cons c rest => simp at hl
  | succ n ihn =>
    intro l hl p x hx
    cases l with
    | nil => simpa [subPoss] using hx
    | cons c rest =>
      by_cases hc : c = '\''
      · subst hc
        cases rest with
        | nil =>
          rw [subPoss_singleton] at hx
          exact hx
        | cons c2 r2 =>
          by_cases hc2 : c2 = 'S'
          · subst hc2
            rw [subPoss_quote_s] at hx
            split_ifs at hx with hcnd
            · have := ihn r2 (by simp at hl ⊢; omega) (some 'S') x hx
              exact List.mem_cons_of_mem _ (List.mem_cons_of_mem _ this)
            · rcases List.mem_cons.mp hx with rfl | hx
              · exact List.mem_cons_self _ _
              · rcases List.mem_cons.mp hx with rfl | hx
                · exact List.mem_cons_of_mem _ (List.mem_cons_self _ _)
                · have := ihn r2 (by simp at hl ⊢; omega) (some 'S') x hx
                  exact List.mem_cons_of_mem _ (List.mem_cons_of_mem _ this)
          · rw [subPoss_quote_not_s p hc2 r2] at hx
            rcases List.mem_cons.mp hx with rfl | hx
            · exact List.mem_cons_self _ _
            · have := ihn (c2 :: r2) (by simp at hl ⊢; omega) (some '\'') x hx
              exact List.mem_cons_of_mem _ this
      · rw [subPoss_cons_ne p hc rest] at hx
        rcases List.mem_cons.mp hx with rfl | hx
        · exact List.mem_cons_self _ _
        · have := ihn rest (by simp at hl ⊢; omega) (some c) x hx
          exact List.mem_cons_of_mem _ this

theorem mem_subPoss {l : List Char} {p : Option Char} {x : Char}
    (h : x ∈ subPoss p l) : x ∈ l :=
  mem_subPoss_aux l.length l le_rfl p x h

theorem mem_subBareS : ∀ {l : List Char} {p : Option Char} {x : Char},
    x ∈ subBareS p l → x ∈ l := by
  intro l
  induction l with
  | nil => intro p x hx; simpa [subBareS] using hx
  | cons c rest ih =>
    intro p x hx
    rw [subBareS_cons] at hx
    split_ifs at hx with hm
    · exact List.mem_cons_of_mem _ (ih hx)
    · rcases List.mem_cons.mp hx with rfl | hx
      · exact List.mem_cons_self _ _
      · exact List.mem_cons_of_mem _ (ih hx)

theorem mem_replNonWord {l : List Char} {x : Char} (h : x ∈ replNonWord l) :
    x = ' ' ∨ x ∈ l := by
  rcases List.mem_map.mp h with ⟨a, ha, rfl⟩
  by_cases hws : (pyWordChar a || isSpaceChar a) = true
  · right; simpa [hws] using ha
  · left; simp [hws]

theorem mem_collapseWs : ∀ {l : List Char} {b : Bool} {x : Char},
    x ∈ collapseWs b l → x = ' ' ∨ (x ∈ l ∧ isSpaceChar x = false) := by
  intro l
  induction l with
  | nil => intro b x hx; simp [collapseWs] at hx
  | cons c rest ih =>
    intro b x hx
    by_cases hs : isSpaceChar c = true
    · cases b with
      | true =>
        rw [show collapseWs true (c :: rest) = collapseWs true rest
            from by simp [collapseWs, hs]] at hx
        rcases ih hx with h | ⟨hm, hns⟩
        · exact Or.inl h
        · exact Or.inr ⟨List.mem_cons_of_mem _ hm, hns⟩
      | false =>
        rw [show collapseWs false (c :: rest) = ' ' :: collapseWs true rest
            from by simp [collapseWs, hs]] at hx
        rcases List.mem_cons.mp hx with rfl | hx
        · exact Or.inl rfl
        · rcases ih hx with h | ⟨hm, hns⟩
          · exact Or.inl h
          · exact Or.inr ⟨List.mem_cons_of_mem _ hm, hns⟩
    · rw [show collapseWs b (c :: rest) = c :: collapseWs false rest
          from by simp [collapseWs, hs]] at hx
      rcases List.mem_cons.mp hx with rfl | hx
      · exact Or.inr ⟨List.mem_cons_self _ _, by simpa using hs⟩
      · rcases ih hx with h | ⟨hm, hns⟩
        · exact Or.inl h
        · exact Or.inr ⟨List.mem_cons_of_mem _ hm, hns⟩

theorem mem_rstripList : ∀ {l : List Char} {x : Char},
    x ∈ rstripList l → x ∈ l := by
  intro l
  induction l with
  | nil => intro x hx; simpa [rstripList] using hx
  | cons c rest ih =>
    intro x hx
    rw [rstripList_cons] at hx
    split_ifs at hx with hcond
    · simp at hx
    · rcases List.mem_cons.mp hx with rfl | hx
      · exact List.mem_cons_self _ _
      · exact List.mem_cons_of_mem _ (ih hx)

/-! #### No standalone `S` survives `subBareS`, and the later stages
preserve that -/

theorem hasLoneS_congr : ∀ (l : List Char) (p q : Option Char),
    atBoundaryL p = atBoundaryL q → hasLoneS p l = hasLoneS q l := by
  intro l
  induction l with
  | nil => intro _ _ _; rfl
  | cons c rest ih =>
    intro p q h
    rw [hasLoneS_cons, hasLoneS_cons, h]

theorem subBareS_no_loneS : ∀ (n : ℕ) (l : List Char), l.length ≤ n →
    ∀ p, hasLoneS p (subBareS p l) = false := by
  intro n
  induction n with
  | zero =>
    intro l hl p
    cases l with
    | nil => rfl
    | cons c rest => simp at hl
  | succ n ihn =>
    intro l hl p
    cases l with
    | nil => rfl
    | cons c rest =>
      rw [subBareS_cons]
      by_cases hm : (c = 'S' && atBoundaryL p && atBoundaryR rest) = true
      · rw [if_pos hm]
        simp only [Bool.and_eq_true, decide_eq_true_eq] at hm
        obtain ⟨⟨hc, _⟩, hbr⟩ := hm
        subst hc
        cases rest with
        | nil => rfl
        | cons d t =>
          have hd : pyWordChar d = false := by
            simpa [atBoundaryR] using hbr
          have hd_ne : d ≠ 'S' := by
            intro h
            subst h
            rw [show pyWordChar 'S' = true from by decide] at hd
            cases hd
          rw [subBareS_cons, if_neg (by simp [hd_ne]), hasLoneS_cons]
          have htail : hasLoneS (some d) (subBareS (some d) t) = false :=
            ihn t (by simp at hl ⊢; omega) (some d)
          simp [hd_ne, htail]
      · rw [if_neg hm, hasLoneS_cons]
        have htail : hasLoneS (some c) (subBareS (some c) rest) = false :=
          ihn rest (by simp at hl ⊢; omega) (some c)
        rw [htail, Bool.or_false]
        by_cases hc : c = 'S'
        · subst hc
          by_cases hbl : atBoundaryL p = true
          · have hbr : atBoundaryR rest = false := by
              cases hx : atBoundaryR rest
              · rfl
              · exact absurd (by simp [hbl, hx]) hm
            cases rest with
            | nil => simp [atBoundaryR] at hbr
            | cons d t =>
              have hw : pyWordChar d = true := by
                simpa [atBoundaryR] using hbr
              rw [subBareS_cons,
                if_neg (by simp [atBoundaryL, show pyWordChar 'S' = true from by decide])]
              simp [atBoundaryR, hw]
          · simp [Bool.eq_false_iff.mpr hbl]
        · simp [hc]

theorem hasLoneS_subBareS (l : List Char) (p : Option Char) :
    hasLoneS p (subBareS p l) = false :=
  subBareS_no_loneS l.length l le_rfl p

theorem replNonWord_char_word (c : Char) :
    pyWordChar (if pyWordChar c || isSpaceChar c then c else ' ') = pyWordChar c := by
  by_cases h : (pyWordChar c || isSpaceChar c) = true
  · rw [if_pos h]
  · rw [if_neg h]
    simp only [Bool.or_eq_true, not_or, Bool.not_eq_true] at h
    rw [h.1]
    decide

theorem replNonWord_char_s (c : Char) :
    ((if pyWordChar c || isSpaceChar c then c else ' ') = 'S') ↔ c = 'S' := by
  by_cases h : (pyWordChar c || isSpaceChar c) = true
  · rw [if_pos h]
  · rw [if_neg h]
    constructor
    · intro h'; cases h'
    · intro h'
      subst h'
      exact absurd (by decide : (pyWordChar 'S' || isSpaceChar 'S') = true) h

theorem atBoundaryR_replNonWord (l : List Char) :
    atBoundaryR (replNonWord l) = atBoundaryR l := by
  cases l with
  | nil => rfl
  | cons d t =>
    simp only [replNonWord, List.map_cons, atBoundaryR]
    rw [replNonWord_char_word]

theorem hasLoneS_replNonWord : ∀ (l : List Char) (p q : Option Char),
    atBoundaryL p = atBoundaryL q →
    hasLoneS p (replNonWord l) = hasLoneS q l := by
  intro l
  induction l with
  | nil => intro _ _ _; rfl
  | cons c rest ih =>
    intro p q h
    rw [show replNonWord (c :: rest)
        = (if pyWordChar c || isSpaceChar c then c else ' ') :: replNonWord rest
      from rfl]
    rw [hasLoneS_cons, hasLoneS_cons]
    have h1 : (decide ((if pyWordChar c || isSpaceChar c then c else ' ') = 'S'))
        = (decide (c = 'S')) := by
      by_cases hcS : c = 'S'
      · subst hcS
        rw [if_pos (by decide)]
      · have hne : (if pyWordChar c || isSpaceChar c then c else ' ') ≠ 'S' := by
          split_ifs with hcc
          · exact hcS
          · decide
        rw [decide_eq_false hne, decide_eq_false hcS]
    have h2 : atBoundaryR (replNonWord rest) = atBoundaryR rest :=
      atBoundaryR_replNonWord rest
    have h3 := ih (some (if pyWordChar c || isSpaceChar c then c else ' ')) (some c)
      (by simp only [atBoundaryL]; rw [replNonWord_char_word])
    rw [h1, h2, h, h3]

theorem space_not_word {c : Char} (h : isSpaceChar c = true) :
    pyWordChar c = false := by
  cases hw : pyWordChar c
  · rfl
  · rw [word_not_space hw] at h
    cases h

theorem headNotSpace_collapse_true : ∀ (l : List Char),
    headNotSpace (collapseWs true l) = true := by
  intro l
  induction l with
  | nil => rfl
  | cons c rest ih =>
    by_cases hs : isSpaceChar c = true
    · rw [show collapseWs true (c :: rest) = collapseWs true rest
        from by simp [collapseWs, hs]]
      exact ih
    · rw [show collapseWs true (c :: rest) = c :: collapseWs false rest
        from by simp [collapseWs, hs]]
      simp [headNotSpace, hs]

theorem noDoubleSpace_cons_cons (a b : Char) (t : List Char) :
    noDoubleSpace (a :: b :: t)
      = (!(isSpaceChar a && isSpaceChar b) && noDoubleSpace (b :: t)) := rfl

theorem noDoubleSpace_collapseWs : ∀ (l : List Char) (b : Bool),
    noDoubleSpace (collapseWs b l) = true := by
  intro l
  induction l with
  | nil => intro b; rfl
  | cons c rest ih =>
    intro b
    by_cases hs : isSpaceChar c = true
    · cases b with
      | true =>
        rw [show collapseWs true (c :: rest) = collapseWs true rest
          from by simp [collapseWs, hs]]
        exact ih true
      | false =>
        rw [show collapseWs false (c :: rest) = ' ' :: collapseWs true rest
          from by simp [collapseWs, hs]]
        rcases hcr : collapseWs true rest with _ | ⟨d, t⟩
        · rfl
        · have hhd := headNotSpace_collapse_true rest
          rw [hcr] at hhd
          simp only [headNotSpace, Bool.not_eq_true'] at hhd
          rw [noDoubleSpace_cons_cons, hhd]
          have := ih true
          rw [hcr] at this
          simp [this]
    · rw [show collapseWs b (c :: rest) = c :: collapseWs false rest
        from by simp [collapseWs, hs]]
      rcases hcr : collapseWs false rest with _ | ⟨d, t⟩
      · rfl
      · rw [noDoubleSpace_cons_cons]
        have := ih false
        rw [hcr] at this
        simp only [Bool.not_eq_true'] at hs
        simp [this, hs]

theorem hasLoneS_collapseWs : ∀ (l : List Char) (b : Bool) (p q : Option Char),
    atBoundaryL p = atBoundaryL q → (b = true → atBoundaryL q = true) →
    hasLoneS p l = false → hasLoneS q (collapseWs b l) = false := by
  intro l
  induction l with
  | nil => intro b p q _ _ _; cases b <;> rfl
  | cons c rest ih =>
    intro b p q hpq hb hl
    rw [hasLoneS_cons, Bool.or_eq_false_iff] at hl
    obtain ⟨hl1, hl2⟩ := hl
    by_cases hs : isSpaceChar c = true
    · have hblc : atBoundaryL (some c) = true := by
        simp [atBoundaryL, space_not_word hs]
      cases b with
      | true =>
        rw [show collapseWs true (c :: rest) = collapseWs true rest
          from by simp [collapseWs, hs]]
        exact ih true (some c) q (by rw [hblc, hb rfl]) (fun _ => hb rfl) hl2
      | false =>
        rw [show collapseWs false (c :: rest) = ' ' :: collapseWs true rest
          from by simp [collapseWs, hs]]
        rw [hasLoneS_cons, Bool.or_eq_false_iff]
        constructor
        · simp
        · exact ih true (some c) (some ' ')
            (by simp [atBoundaryL, space_not_word hs,
              show pyWordChar ' ' = false from by decide])
            (fun _ => by simp [atBoundaryL, show pyWordChar ' ' = false from by decide])
            hl2
    · rw [show collapseWs b (c :: rest) = c :: collapseWs false rest
        from by simp [collapseWs, hs]]
      rw [hasLoneS_cons, Bool.or_eq_false_iff]
      refine ⟨?_, ih false (some c) (some c) rfl (fun h => by cases h) hl2⟩
      by_cases hc : c = 'S'
      · subst hc
        by_cases hbl : atBoundaryL q = true
        · have hbr : atBoundaryR rest = false := by
            cases hx : atBoundaryR rest
            · rfl
            · rw [hpq, hbl] at hl1
              simpa [hx] using hl1
          cases rest with
          | nil => simp [atBoundaryR] at hbr
          | cons d t =>
            have hw : pyWordChar d = true := by
              simpa [atBoundaryR] using hbr
            rw [show collapseWs false (d :: t) = d :: collapseWs false t
              from by simp [collapseWs, word_not_space hw]]
            simp [atBoundaryR, hw]
        · simp [Bool.eq_false_iff.mpr hbl]
      · simp [hc]

theorem hasLoneS_dropWhile : ∀ {l : List Char},
    hasLoneS none l = false → hasLoneS none (l.dropWhile isSpaceChar) = false := by
  intro l
  induction l with
  | nil => intro _; exact rfl
  | cons c rest ih =>
    intro h
    rw [hasLoneS_cons, Bool.or_eq_false_iff] at h
    by_cases hs : isSpaceChar c = true
    · rw [List.dropWhile_cons_of_pos (by simpa using hs)]
      refine ih ?_
      rw [hasLoneS_congr rest none (some c)
        (by simp [atBoundaryL, space_not_word hs])]
      exact h.2
    · rw [List.dropWhile_cons_of_neg (by simpa using hs)]
      rw [hasLoneS_cons, Bool.or_eq_false_iff]
      exact h

theorem rstripList_head : ∀ (c : Char) (rest : List Char),
    rstripList (c :: rest) = [] ∨ ∃ t, rstripList (c :: rest) = c :: t := by
  intro c rest
  rw [rstripList_cons]
  split_ifs with h
  · exact Or.inl rfl
  · exact Or.inr ⟨rstripList rest, rfl⟩

theorem hasLoneS_rstripList : ∀ (l : List Char) (p : Option Char),
    hasLoneS p l = false → hasLoneS p (rstripList l) = false := by
  intro l
  induction l with
  | nil => intro _ _; exact rfl
  | cons c rest ih =>
    intro p h
    rw [hasLoneS_cons, Bool.or_eq_false_iff] at h
    obtain ⟨h1, h2⟩ := h
    rw [rstripList_cons]
    split_ifs with hcond
    · rfl
    · rw [hasLoneS_cons, Bool.or_eq_false_iff]
      refine ⟨?_, ih (some c) h2⟩
      by_cases hc : c = 'S'
      · subst hc
        by_cases hbl : atBoundaryL p = true
        · have hbr : atBoundaryR rest = false := by
            cases hx : atBoundaryR rest
            · rfl
            · rw [hbl] at h1
              simpa [hx] using h1
          cases rest with
          | nil => simp [atBoundaryR] at hbr
          | cons d t =>
            have hw : pyWordChar d = true := by
              simpa [atBoundaryR] using hbr
            rcases rstripList_head d t with hr | ⟨t', hr⟩
            · exfalso
              rw [rstripList_cons] at hr
              by_cases hcond2 : ((rstripList t).isEmpty && isSpaceChar d) = true
              · have hsd := ((Bool.and_eq_true _ _).mp hcond2).2
                rw [word_not_space hw] at hsd
                cases hsd
              · rw [if_neg hcond2] at hr
                cases hr
            · rw [hr]
              simp [atBoundaryR, hw]
        · simp [Bool.eq_false_iff.mpr hbl]
      · simp [hc]

theorem headNotSpace_dropWhile : ∀ (l : List Char),
    headNotSpace (l.dropWhile isSpaceChar) = true := by
  intro l
  induction l with
  | nil => rfl
  | cons c rest ih =>
    by_cases hs : isSpaceChar c = true
    · rw [List.dropWhile_cons_of_pos (by simpa using hs)]
      exact ih
    · rw [List.dropWhile_cons_of_neg (by simpa using hs)]
      simp [headNotSpace, hs]

theorem headNotSpace_rstripList : ∀ {l : List Char},
    headNotSpace l = true → headNotSpace (rstripList l) = true := by
  intro l
  cases l with
  | nil => intro _; rfl
  | cons c rest =>
    intro h
    rw [rstripList_cons]
    split_ifs with hcond
    · rfl
    · exact h

theorem lastNotSpace_rstripList : ∀ (l : List Char),
    lastNotSpace (rstripList l) = true := by
  intro l
  induction l with
  | nil => rfl
  | cons c rest ih =>
    rw [rstripList_cons]
    split_ifs with hcond
    · rfl
    · rcases hr : rstripList rest with _ | ⟨d, t⟩
      · rw [hr] at hcond
        simp only [List.isEmpty_nil, Bool.true_and] at hcond
        simp [lastNotSpace, hcond]
      · rw [hr] at ih
        rw [lastNotSpace_cons_cons]
        exact ih

theorem noDoubleSpace_dropWhile : ∀ {l : List Char},
    noDoubleSpace l = true → noDoubleSpace (l.dropWhile isSpaceChar) = true := by
  intro l
  induction l with
  | nil => intro _; rfl
  | cons c rest ih =>
    intro h
    by_cases hs : isSpaceChar c = true
    · rw [List.dropWhile_cons_of_pos (by simpa using hs)]
      exact ih (noDoubleSpace_tail h)
    · rw [List.dropWhile_cons_of_neg (by simpa using hs)]
      exact h

theorem noDoubleSpace_rstripList : ∀ {l : List Char},
    noDoubleSpace l = true → noDoubleSpace (rstripList l) = true := by
  intro l
  induction l with
  | nil => intro _; rfl
  | cons c rest ih =>
    intro h
    rw [rstripList_cons]
    split_ifs with hcond
    · rfl
    · rcases hr : rstripList rest with _ | ⟨d, t⟩
      · rfl
      · cases rest with
        | nil => simp [rstripList] at hr
        | cons e t' =>
          have hde : d = e := by
            rcases rstripList_head e t' with h' | ⟨t'', h'⟩
            · rw [h'] at hr; cases hr
            · rw [h'] at hr
              injection hr with h1 _
              exact h1.symm
          subst hde
          rw [noDoubleSpace_cons_cons]
          have hnd := noDoubleSpace_pair h
          have htl := ih (noDoubleSpace_tail h)
          rw [hr] at htl
          simp [hnd, htl]

/-! #### ASCII inputs produce canonical outputs -/

theorem char_toNat_ofNat {n : ℕ} (h : n < 55296) : (Char.ofNat n).toNat = n := by
  have hv : n.isValidChar := Or.inl h
  rw [Char.ofNat, dif_pos hv]
  simp [Char.ofNatAux, Char.toNat, UInt32.toNat]

theorem toUpper_toNat_of_lower {a : Char} (h : 97 ≤ a.toNat ∧ a.toNat ≤ 122) :
    (a.toUpper).toNat = a.toNat - 32 := by
  unfold Char.toUpper
  rw [if_pos (by omega)]
  exact char_toNat_ofNat (by omega)

theorem pyUpper_out {a c : Char} (ha : a.toNat < 128) (hc : c ∈ pyUpper a) :
    c.toNat < 128 ∧ ¬(97 ≤ c.toNat ∧ c.toNat ≤ 122) := by
  unfold pyUpper at hc
  split_ifs at hc with h1 h2
  · rcases List.mem_singleton.mp hc with rfl
    have hl : 97 ≤ a.toNat ∧ a.toNat ≤ 122 := by simpa using h1
    rw [toUpper_toNat_of_lower hl]
    omega
  · subst h2
    exact absurd ha (by decide)
  · rcases List.mem_singleton.mp hc with rfl
    refine ⟨ha, ?_⟩
    simpa using h1

theorem normUpper_ascii {l : List Char} (ha : ∀ c ∈ l, c.toNat < 128) :
    normUpper l = l.flatMap pyUpper := by
  unfold normUpper
  rw [flatMap_id_of (fun c hc => nfkdChar_ascii (ha c hc))]
  rw [List.filter_eq_self.mpr (fun c hc => by simp [isCombining_ascii (ha c hc)])]

theorem canonChar_intro {c : Char} (h1 : c.toNat < 128)
    (h2 : pyWordChar c = true ∨ c = ' ') (h3 : ¬(97 ≤ c.toNat ∧ c.toNat ≤ 122)) :
    canonChar c = true := by
  unfold canonChar
  rcases h2 with hw | hsp
  · have hnl : (97 ≤ c.toNat && c.toNat ≤ 122) = false := by
      simp only [Bool.and_eq_false_iff, decide_eq_false_iff_not]
      omega
    simp [h1, hw, hnl]
  · subst hsp
    decide

/-- `clean_name`'s output on an all-ASCII input is canonical. -/
theorem canonical_cleanList {l : List Char} (h : allAscii l = true) :
    canonical (cleanList l) = true := by
  have hin : ∀ c ∈ l, c.toNat < 128 := by
    intro c hc
    simpa using List.all_eq_true.mp h c hc
  have ht1 : normUpper l = l.flatMap pyUpper := normUpper_ascii hin
  have hF1 : ∀ c ∈ normUpper l, c.toNat < 128 ∧ ¬(97 ≤ c.toNat ∧ c.toNat ≤ 122) := by
    intro c hc
    rw [ht1] at hc
    rcases List.mem_flatMap.mp hc with ⟨a, ha, hmem⟩
    exact pyUpper_out (hin a ha) hmem
  have hF3 : ∀ c ∈ subPoss none (removeParens (normUpper l)),
      c.toNat < 128 ∧ ¬(97 ≤ c.toNat ∧ c.toNat ≤ 122) :=
    fun c hc => hF1 c (mem_removeParens (mem_subPoss hc))
  unfold cleanList
  set t4 := subBareS none (subPoss none (removeParens (normUpper l))) with ht4
  have hG4 : hasLoneS none t4 = false := hasLoneS_subBareS _ none
  have hF4 : ∀ c ∈ t4, c.toNat < 128 ∧ ¬(97 ≤ c.toNat ∧ c.toNat ≤ 122) :=
    fun c hc => hF3 c (mem_subBareS hc)
  rw [asciiFilter_id (fun c hc => (hF4 c hc).1)]
  have hF6 : ∀ c ∈ replNonWord t4, c.toNat < 128 ∧ ¬(97 ≤ c.toNat ∧ c.toNat ≤ 122) := by
    intro c hc
    rcases mem_replNonWord hc with rfl | hc'
    · exact ⟨by decide, by decide⟩
    · exact hF4 c hc'
  have hW6 : ∀ c ∈ replNonWord t4, pyWordChar c = true ∨ isSpaceChar c = true := by
    intro c hc
    rcases List.mem_map.mp hc with ⟨a, _, rfl⟩
    by_cases hws : (pyWordChar a || isSpaceChar a) = true
    · rw [if_pos hws]
      simpa using hws
    · rw [if_neg hws]
      right
      decide
  have hG6 : hasLoneS none (replNonWord t4) = false := by
    rw [hasLoneS_replNonWord t4 none none rfl]
    exact hG4
  have hchars7 : ∀ c ∈ collapseWs false (replNonWord t4),
      (c.toNat < 128 ∧ ¬(97 ≤ c.toNat ∧ c.toNat ≤ 122))
        ∧ (pyWordChar c = true ∨ c = ' ') := by
    intro c hc
    rcases mem_collapseWs hc with rfl | ⟨hc', hns⟩
    · exact ⟨⟨by decide, by decide⟩, Or.inr rfl⟩
    · refine ⟨hF6 c hc', ?_⟩
      rcases hW6 c hc' with hw | hsp
      · exact Or.inl hw
      · rw [hsp] at hns
        cases hns
  have hND7 : noDoubleSpace (collapseWs false (replNonWord t4)) = true :=
    noDoubleSpace_collapseWs _ false
  have hG7 : hasLoneS none (collapseWs false (replNonWord t4)) = false :=
    hasLoneS_collapseWs _ false none none rfl (fun h => by cases h) hG6
  unfold pyStrip
  set t7 := collapseWs false (replNonWord t4) with ht7
  set d7 := t7.dropWhile isSpaceChar with hd7
  have hall8 : ∀ c ∈ rstripList d7, canonChar c = true := by
    intro c hc
    have hmem : c ∈ t7 :=
      (List.dropWhile_sublist isSpaceChar).mem (mem_rstripList hc)
    obtain ⟨⟨ha, hnl⟩, hws⟩ := hchars7 c hmem
    exact canonChar_intro ha hws hnl
  have hnd8 : noDoubleSpace (rstripList d7) = true :=
    noDoubleSpace_rstripList (noDoubleSpace_dropWhile hND7)
  have hhn8 : headNotSpace (rstripList d7) = true :=
    headNotSpace_rstripList (headNotSpace_dropWhile t7)
  have hln8 : lastNotSpace (rstripList d7) = true :=
    lastNotSpace_rstripList d7
  have hlo8 : hasLoneS none (rstripList d7) = false :=
    hasLoneS_rstripList d7 none (hasLoneS_dropWhile hG7)
  unfold canonical
  rw [List.all_eq_true.mpr hall8, hnd8, hhn8, hln8, hlo8]
  rfl

/-! ### Claim theorems -/

/-- Asymmetry of the (distance, index) ordering modelling the KD-tree
result order. -/
theorem ltLex_asym (a b : ℤ × ℕ) :
    decide (a.1 < b.1 ∨ (a.1 = b.1 ∧ a.2 < b.2)) = true →
    decide (b.1 < a.1 ∨ (b.1 = a.1 ∧ b.2 < a.2)) = false := by
  simp only [decide_eq_true_eq, decide_eq_false_iff_not]
  omega

/-- Transitivity of the negated (distance, index) ordering. -/
theorem ltLex_trans (a b c : ℤ × ℕ) :
    decide (b.1 < a.1 ∨ (b.1 = a.1 ∧ b.2 < a.2)) = false →
    decide (c.1 < b.1 ∨ (c.1 = b.1 ∧ c.2 < b.2)) = false →
    decide (c.1 < a.1 ∨ (c.1 = a.1 ∧ c.2 < a.2)) = false := by
  simp only [decide_eq_false_iff_not]
  omega

/-- The KD-tree query model returns distances in non-decreasing order. -/
theorem kdtree_query_pairwise (cmp : List CmpPt) (k : ℕ) (px py : ℤ) :
    List.Pairwise (fun a b : ℤ × ℕ => a.1 ≤ b.1) (kdtree_query cmp k px py) := by
  unfold kdtree_query
  refine List.Pairwise.sublist (List.take_sublist _ _) ?_
  refine List.Pairwise.imp ?_ (pairwise_isortBy ltLex_asym ltLex_trans _)
  intro a b h
  simp only [decide_eq_false_iff_not] at h
  omega

/-- Indices returned by the KD-tree query model are in range. -/
theorem kdtree_query_mem_lt (cmp : List CmpPt) (k : ℕ) (px py : ℤ) :
    ∀ di ∈ kdtree_query cmp k px py, di.2 < cmp.length := by
  intro di hdi
  unfold kdtree_query at hdi
  have h1 := (List.take_sublist _ _).mem hdi
  have h2 := (isortBy_perm _ _).mem_iff.mp h1
  rcases List.mem_map.mp h2 with ⟨p, hp, rfl⟩
  exact List.fst_lt_of_mem_enum hp

/-- Indices returned by the KD-tree query model are pairwise distinct. -/
theorem kdtree_query_idx_nodup (cmp : List CmpPt) (k : ℕ) (px py : ℤ) :
    ((kdtree_query cmp k px py).map (fun di => di.2)).Nodup := by
  unfold kdtree_query
  rw [List.map_take]
  refine List.Nodup.sublist (List.take_sublist _ _) ?_
  have hperm := ((isortBy_perm
      (fun a b : ℤ × ℕ => decide (a.1 < b.1 ∨ (a.1 = b.1 ∧ a.2 < b.2)))
      (cmp.enum.map (fun p => (dist2 px py p.2.x p.2.y, p.1)))).map
        (fun di : ℤ × ℕ => di.2))
  rw [hperm.nodup_iff, List.map_map]
  have hcomp : ((fun di : ℤ × ℕ => di.2)
      ∘ (fun p : ℕ × CmpPt => (dist2 px py p.2.x p.2.y, p.1))) = Prod.fst := rfl
  rw [hcomp, List.enum_map_fst]
  exact List.nodup_range _

/-- C4: after spatial candidate search every stored candidate list has
at most `k` entries, its distances are non-decreasing, every stored
distance is within the `max_dist` bound (inclusive, in the squared
encoding), and — given the data-model invariant that comparison ids are
unique — the list has no duplicate ids. -/
theorem candidate_list_invariants (refs : List (ℤ × ℤ)) (cmp : List CmpPt)
    (k : ℕ) (maxDist2 : ℤ) (hids : (cmp.map (fun c => c.id)).Nodup) :
    ∀ p ∈ search_spatial_candidates refs cmp k maxDist2,
      p.2.1.length ≤ k
      ∧ List.Pairwise (fun d d' : ℤ => d ≤ d') p.2.2
      ∧ (∀ d ∈ p.2.2, d ≤ maxDist2)
      ∧ p.2.1.Nodup := by
  intro p hp
  simp only [search_spatial_candidates, List.mem_map] at hp
  rcases hp with ⟨pt, _, rfl⟩
  simp only [search_row]
  have hq : (kdtree_query cmp k pt.1 pt.2).length ≤ k := by
    unfold kdtree_query
    rw [List.length_take]
    exact le_trans (min_le_left _ _) (min_le_left _ _)
  refine ⟨?_, ?_, ?_, ?_⟩
  · simp only [List.length_map]
    exact le_trans (List.length_filter_le _ _) hq
  · rw [List.pairwise_map]
    exact List.Pairwise.sublist (List.filter_sublist _)
      (kdtree_query_pairwise cmp k pt.1 pt.2)
  · intro d hd
    rcases List.mem_map.mp hd with ⟨di, hdi, rfl⟩
    simpa using (List.mem_filter.mp hdi).2
  · rw [show (fun di : ℤ × ℕ => ((cmp.get? di.2).map (fun c => c.id)).getD "")
        = ((fun i => ((cmp.get? i).map (fun c => c.id)).getD "")
            ∘ (fun di : ℤ × ℕ => di.2)) from rfl, ← List.map_map]
    have hkeptidx : ((List.filter (fun di => di.1 ≤ maxDist2)
        (kdtree_query cmp k pt.1 pt.2)).map (fun di => di.2)).Nodup := by
      refine List.Nodup.sublist ?_ (kdtree_query_idx_nodup cmp k pt.1 pt.2)
      exact List.Sublist.map _ (List.filter_sublist _)
    refine List.Nodup.map_on ?_ hkeptidx
    intro x hx y hy hxy
    have hxlt : x < cmp.length := by
      rcases List.mem_map.mp hx with ⟨di, hdi, rfl⟩
      exact kdtree_query_mem_lt cmp k pt.1 pt.2 di ((List.filter_sublist _).mem hdi)
    have hylt : y < cmp.length := by
      rcases List.mem_map.mp hy with ⟨di, hdi, rfl⟩
      exact kdtree_query_mem_lt cmp k pt.1 pt.2 di ((List.filter_sublist _).mem hdi)
    have hcx := List.get?_eq_get hxlt
    have hcy := List.get?_eq_get hylt
    refine List.get?_inj (by simpa using hxlt) hids ?_
    rw [List.get?_map, List.get?_map, hcx, hcy]
    rw [hcx, hcy] at hxy
    simpa using hxy

/-- Witness for C4 at a concrete instance; note the neighbour at
squared distance 16 = maxDist2 is kept (inclusive boundary). -/
theorem candidate_list_invariants_witness :
    ((([⟨"a", 0, 3⟩, ⟨"b", 4, 0⟩] : List CmpPt).map (fun c => c.id)).Nodup)
    ∧ (((0, 0), ["a", "b"], [9, 16]) : (ℤ × ℤ) × List String × List ℤ)
        ∈ search_spatial_candidates [(0, 0)] [⟨"a", 0, 3⟩, ⟨"b", 4, 0⟩] 5 16
    ∧ ((["a", "b"] : List String).length ≤ 5
        ∧ List.Pairwise (fun d d' : ℤ => d ≤ d') [9, 16]
        ∧ (∀ d ∈ ([9, 16] : List ℤ), d ≤ 16)
        ∧ (["a", "b"] : List String).Nodup) :=
  ⟨by decide, by decide,
    candidate_list_invariants [(0, 0)] [⟨"a", 0, 3⟩, ⟨"b", 4, 0⟩] 5 16 (by decide)
      ((0, 0), ["a", "b"], [9, 16]) (by decide)⟩

/-- C5: with an empty comparison set, the Spatial Candidate Finder
attaches an empty candidate id list and an empty distance list to every
reference record (and, being a total function, never fails). -/
theorem spatial_empty_comparison (refs : List (ℤ × ℤ)) (k : ℕ) (maxDist2 : ℤ) :
    search_spatial_candidates refs [] k maxDist2 = refs.map (fun p => (p, [], [])) := by
  simp [search_spatial_candidates, search_row, kdtree_query, isortBy]

/-- C8: `extract_prinmary_str` computes exactly the spec's
`extract_primary`: split on whitespace, drop excluded tokens, return the
original input when nothing remains or a single too-short token remains,
otherwise join the remaining tokens with single spaces. -/
theorem extract_primary_correct (excl : List String) (name : String) :
    extract_prinmary_str excl name = extract_primary_spec excl name := by
  simp only [extract_prinmary_str, extract_primary_spec]
  rcases h : (pySplit name).filter (fun t => !excl.contains t) with _ | ⟨t, _ | ⟨u, ts⟩⟩
  · simp
  · simp
    split_ifs <;> rfl
  · simp

/-- C10 counterexample: `calculate_similarity_check` mutates its
argument in place — after the call the caller's dataframe differs from
what was passed in (here the pre-existing `category_sim` value of an
unmatched row has been overwritten with `NaN`). -/
theorem calc_sim_mutates_input :
    (calculate_similarity_check_call oneSim [⟨none, none, none, some 7⟩]).1
      ≠ [⟨none, none, none, some 7⟩] := by
  decide

/-- C10 amended: the Spatial Candidate Finder, Name Matcher and Address
Scorer copy their input collection before enriching it, so the caller's
collection is unchanged after the call; the Category Semantic Scorer
instead writes its result column into the input collection in place and
returns that same (mutated) object. -/
theorem mutation_discipline (refs : List (ℤ × ℤ)) (cmpPts : List CmpPt) (k : ℕ)
    (maxDist2 : ℤ) (wr pr ts tset : String → String → ℤ) (excl : List String)
    (rrows : List RefRow) (cmpRecs : List CmpRec) (threshold : ℤ)
    (arows : List AddrRow) (cmpAddrs : List (String × Option String))
    (sim : String → String → ℤ) (df : List CatRow) :
    (search_spatial_candidates_call refs cmpPts k maxDist2).1 = refs
    ∧ (match_by_name_call wr pr ts tset excl rrows cmpRecs threshold).1 = rrows
    ∧ (address_score_check_call wr pr ts tset arows cmpAddrs).1 = arows
    ∧ (calculate_similarity_check_call sim df).1 = (calculate_similarity_check_call sim df).2 :=
  ⟨rfl, rfl, rfl, rfl⟩

/-- C9 counterexample: a row with a matched identifier whose
matched-category text is the empty string (present, not missing) gets a
computed similarity (here the similarity of "restaurant" against the
empty string), not a null score. -/
theorem category_empty_text_scored :
    calculate_similarity_check oneSim [⟨some "id1", some "restaurant", some "", none⟩]
      = [⟨some "id1", some "restaurant", some "", some 1⟩] := by
  decide

/-- C9 amended: in the Category Semantic Scorer the score is null
exactly when the gatekeeper fails (no usable matched identifier) or one
of the two category values is originally missing (`None`/`NaN`); an
empty string that is present is encoded and scored like any other text
(the empty-string placeholder only ever stands in for missing values).
-/
theorem category_null_iff_missing (sim : String → String → ℤ) (df : List CatRow)
    (r : CatRow) :
    calculate_similarity_check sim df = df.map (calc_sim_row sim)
    ∧ ((calc_sim_row sim r).category_sim = none ↔
        (gatekeeper r = false ∨ r.primary_type = none ∨ r.matched_cat_main = none)) := by
  refine ⟨rfl, ?_⟩
  unfold calc_sim_row
  by_cases hg : gatekeeper r
  · by_cases h1 : r.primary_type = none
    · simp [h1]
    · by_cases h2 : r.matched_cat_main = none
      · simp [h1, h2]
      · simp [h1, h2, hg, Option.isNone_iff_eq_none]
  · simp [hg]

/-- C6 counterexample: `clean_name` is not idempotent.  On "S中" the
leading `S` is shielded from the `\bS\b` rule by the adjacent CJK word
character, which the ASCII filter then deletes, leaving "S"; a second
application removes that now-standalone `S`. -/
theorem clean_name_not_idempotent :
    clean_name (some (clean_name (some "S中"))) ≠ clean_name (some "S中")
    ∧ clean_name (some "S中") = "S"
    ∧ clean_name (some (clean_name (some "S中"))) = "" := by
  refine ⟨by decide, by decide, by decide⟩

/-- C6 amended: `clean_name` is idempotent on every ASCII input (the
counterexample needs a non-ASCII word character; on ASCII strings the
output is canonical — uppercase word characters and single spaces, no
possessive markers, no standalone `S` — and canonical strings are fixed
points of the pipeline). -/
theorem clean_name_idempotent_ascii (s : String) (h : allAscii s.data = true) :
    clean_name (some (clean_name (some s))) = clean_name (some s) := by
  show String.mk (cleanList (cleanList s.data)) = String.mk (cleanList s.data)
  rw [cleanList_id_of_canonical (canonical_cleanList h)]

/-- Witness for C6 amended on a concrete ASCII input. -/
theorem clean_name_idempotent_ascii_witness :
    allAscii "Macy's (Downtown)".data = true
    ∧ clean_name (some (clean_name (some "Macy's (Downtown)")))
        = clean_name (some "Macy's (Downtown)") :=
  ⟨by decide, clean_name_idempotent_ascii "Macy's (Downtown)" (by decide)⟩

/-- C7 counterexample: the Address Scorer's `clean_name` differs from
the Name Matcher's on "MACY'S" — the address version has no
possessive-marker step, so the apostrophe just becomes a space. -/
theorem address_clean_differs :
    address_clean_name (some "MACY'S") ≠ clean_name (some "MACY'S")
    ∧ address_clean_name (some "MACY'S") = "MACY S"
    ∧ clean_name (some "MACY'S") = "MACY" := by
  refine ⟨by decide, by decide, by decide⟩

/-- C7 amended: the Address Scorer's normalization is the Name
Matcher's pipeline **without** step (4) (the `'S` / standalone-`S`
removal); the two functions agree exactly on the inputs where those two
substitutions do not fire on the intermediate string. -/
theorem address_clean_eq_when_no_possessive (s : String)
    (h1 : subPoss none (removeParens (normUpper s.data))
        = removeParens (normUpper s.data))
    (h2 : subBareS none (removeParens (normUpper s.data))
        = removeParens (normUpper s.data)) :
    address_clean_name (some s) = clean_name (some s) := by
  simp only [address_clean_name, clean_name, cleanList, cleanListAddr, h1, h2]

/-- Witness for C7 amended at an input without possessive markers. -/
theorem address_clean_eq_witness :
    subPoss none (removeParens (normUpper "CAFE MAIN".data))
        = removeParens (normUpper "CAFE MAIN".data)
    ∧ subBareS none (removeParens (normUpper "CAFE MAIN".data))
        = removeParens (normUpper "CAFE MAIN".data)
    ∧ address_clean_name (some "CAFE MAIN") = clean_name (some "CAFE MAIN") :=
  ⟨by decide, by decide,
    address_clean_eq_when_no_possessive "CAFE MAIN" (by decide) (by decide)⟩

/-- C2 counterexample: a reference row with a null name and a non-empty
candidate list is *not* left with a null score — the guard
`not isinstance(query, str)` never fires because `clean_name` always
returns a string, so the empty query is scored against the candidates
(rapidfuzz yields 0 for an empty query, represented by `zScore` here)
and the score 0 is recorded. -/
theorem null_name_still_scored :
    match_by_name zScore zScore zScore zScore []
        [⟨none, ["c1"], [7]⟩] [⟨"c1", some "Shop", none⟩] 80
      = [(⟨none, ["c1"], [7]⟩, ⟨none, some 0, none, none, none⟩)] := by
  decide

/-- C2 amended: a reference row whose candidate list is empty is left
unmatched with a null score and all other match fields null.  (The
"non-usable query" disjunct of the claim does not hold: the normalizer
always yields a string, so a null or unusable name produces an empty
query that is scored normally, as the counterexample shows.) -/
theorem empty_candidates_unmatched (wr pr ts tset : String → String → ℤ)
    (excl : List String) (refs : List RefRow) (cmp : List CmpRec) (threshold : ℤ) :
    ∀ p ∈ match_by_name wr pr ts tset excl refs cmp threshold,
      p.1.cand_ids = [] → p.2 = ⟨none, none, none, none, none⟩ := by
  intro p hp hcand
  simp only [match_by_name, List.mem_map] at hp
  rcases hp with ⟨r, _, rfl⟩
  replace hcand : r.cand_ids = [] := hcand
  simp [match_row, hcand]

/-- Witness for C2 amended at a concrete row. -/
theorem empty_candidates_unmatched_witness :
    (⟨⟨some "A", [], []⟩, ⟨none, none, none, none, none⟩⟩ : RefRow × MatchResult)
        ∈ match_by_name zScore zScore zScore zScore [] [⟨some "A", [], []⟩] [] 80
    ∧ (⟨some "A", [], []⟩ : RefRow).cand_ids = []
    ∧ (⟨⟨some "A", [], []⟩, ⟨none, none, none, none, none⟩⟩ : RefRow × MatchResult).2
        = ⟨none, none, none, none, none⟩ :=
  ⟨by decide, rfl,
    empty_candidates_unmatched zScore zScore zScore zScore [] [⟨some "A", [], []⟩] [] 80
      _ (by decide) rfl⟩

/-- The selection loop picks an element of the list attaining the
maximal score, and the first such element. -/
theorem pickBest_max {α : Type} (g : α → ℤ) (l : List α)
    (hpos : ∃ m0 ∈ l, -1 < g m0) :
    ∃ m ∈ l, pickBest g l = (g m, some m) ∧ (∀ x ∈ l, g x ≤ g m) ∧
      ∃ l₁ l₂, l = l₁ ++ m :: l₂ ∧ ∀ x ∈ l₁, g x < g m := by
  rcases foldBest_spec g l (-1) none with ⟨heq, hall⟩ | ⟨l₁, m, l₂, hl, heq, _, h1, h2⟩
  · rcases hpos with ⟨m0, hm0, hgt⟩
    exact absurd (hall m0 hm0) (by omega)
  · refine ⟨m, by simp [hl], heq, ?_, l₁, l₂, hl, h1⟩
    intro x hx
    rw [hl] at hx
    rcases List.mem_append.mp hx with hx | hx
    · exact le_of_lt (h1 x hx)
    · rcases List.mem_cons.mp hx with rfl | hx
      · exact le_refl _
      · exact h2 x hx

/-- C1 counterexample data: six candidates; the sixth has the highest
combined score (partial-ratio 100) but only WRatio 10, so
`process.extract(..., limit=5)` drops it before combined scores are
ever computed. -/
def wrSix : String → String → ℤ :=
  fun _ n => if n = "N5" then 10 else if n = "N0" then 95 else 90

/-- Partial-ratio pattern for the C1 counterexample. -/
def prSix : String → String → ℤ := fun _ n => if n = "N5" then 100 else 0

/-- Comparison set for the C1 counterexample. -/
def cmpSix : List CmpRec :=
  [⟨"i0", some "N0", none⟩, ⟨"i1", some "N1", none⟩, ⟨"i2", some "N2", none⟩,
   ⟨"i3", some "N3", none⟩, ⟨"i4", some "N4", none⟩, ⟨"i5", some "N5", none⟩]

/-- C1 counterexample: with six candidates the winner is chosen only
among the top five by WRatio: the row reports winner "i0" with combined
score 95, while candidate index 5 ("N5", dropped by `limit=5`) has
combined score 100 — a strictly higher combined score than the reported
winner, contradicting the claim. -/
theorem winner_not_global_max :
    match_by_name wrSix prSix zScore zScore []
        [⟨some "Q", ["i0", "i1", "i2", "i3", "i4", "i5"], [0, 1, 2, 3, 4, 5]⟩]
        cmpSix 80
      = [(⟨some "Q", ["i0", "i1", "i2", "i3", "i4", "i5"], [0, 1, 2, 3, 4, 5]⟩,
          ⟨some "i0", some 95, some 0, some "N0", none⟩)]
    ∧ combined4 prSix zScore zScore "Q" ("N5", wrSix "Q" "N5", 5) = 100
    ∧ (95 : ℤ) < 100 := by
  refine ⟨by decide, by decide, by decide⟩

/-- C1 amended: for every scored reference row (non-empty candidate
list, non-negative WRatio as in rapidfuzz), the winning candidate
maximises the combined score over the **top five candidates by WRatio
score** (`process.extract(..., limit=5)`), not over the whole candidate
list; the reported name score equals that winner's combined score, ties
are broken by first occurrence in the WRatio-descending extract order,
and when the score clears the threshold the matched identifier is the
winner's candidate id. -/
theorem best_of_top5 (wr pr ts tset : String → String → ℤ)
    (cl : String → Option String) (raw cat : String → Option (Option String))
    (excl : List String) (thr : ℤ) (row : RefRow)
    (hwr : ∀ a b, 0 ≤ wr a b) (hne : row.cand_ids ≠ []) :
    ∃ m ∈ process_extract wr (extract_prinmary_str excl (clean_name row.name))
        (row.cand_ids.map (fun cid => (cl cid).getD "")) 5,
      (match_row wr pr ts tset cl raw cat excl thr row).name_score
          = some (combined4 pr ts tset (extract_prinmary_str excl (clean_name row.name)) m)
      ∧ (∀ m' ∈ process_extract wr (extract_prinmary_str excl (clean_name row.name))
            (row.cand_ids.map (fun cid => (cl cid).getD "")) 5,
          combined4 pr ts tset (extract_prinmary_str excl (clean_name row.name)) m'
            ≤ combined4 pr ts tset (extract_prinmary_str excl (clean_name row.name)) m)
      ∧ (∃ l₁ l₂, process_extract wr (extract_prinmary_str excl (clean_name row.name))
            (row.cand_ids.map (fun cid => (cl cid).getD "")) 5 = l₁ ++ m :: l₂
          ∧ ∀ x ∈ l₁,
              combined4 pr ts tset (extract_prinmary_str excl (clean_name row.name)) x
                < combined4 pr ts tset (extract_prinmary_str excl (clean_name row.name)) m)
      ∧ (thr ≤ combined4 pr ts tset (extract_prinmary_str excl (clean_name row.name)) m →
          (match_row wr pr ts tset cl raw cat excl thr row).matched_id
            = some (row.cand_ids.getD m.2.2 "")) := by
  have hne' : row.cand_ids.isEmpty = false := by simp [hne]
  have htm_ne : process_extract wr (extract_prinmary_str excl (clean_name row.name))
      (row.cand_ids.map (fun cid => (cl cid).getD "")) 5 ≠ [] :=
    process_extract_ne_nil (by simp [hne])
  have hpos : ∃ m0 ∈ process_extract wr (extract_prinmary_str excl (clean_name row.name))
      (row.cand_ids.map (fun cid => (cl cid).getD "")) 5,
      -1 < combined4 pr ts tset (extract_prinmary_str excl (clean_name row.name)) m0 := by
    rcases hm0 : process_extract wr (extract_prinmary_str excl (clean_name row.name))
        (row.cand_ids.map (fun cid => (cl cid).getD "")) 5 with _ | ⟨m0, tms⟩
    · exact absurd hm0 htm_ne
    · refine ⟨m0, List.mem_cons_self _ _, ?_⟩
      have hsc : m0.2.1 = wr (extract_prinmary_str excl (clean_name row.name)) m0.1 :=
        process_extract_score (by rw [hm0]; exact List.mem_cons_self _ _)
      have h0 := hwr (extract_prinmary_str excl (clean_name row.name)) m0.1
      have hge : m0.2.1 ≤ combined4 pr ts tset
          (extract_prinmary_str excl (clean_name row.name)) m0 :=
        le_trans (le_max_left _ _) (le_max_left _ _)
      omega
  obtain ⟨m, hm, hpick, hmax, l₁, l₂, hl, h1⟩ :=
    pickBest_max (combined4 pr ts tset (extract_prinmary_str excl (clean_name row.name)))
      (process_extract wr (extract_prinmary_str excl (clean_name row.name))
        (row.cand_ids.map (fun cid => (cl cid).getD "")) 5) hpos
  refine ⟨m, hm, ?_, hmax, ⟨l₁, l₂, hl, h1⟩, ?_⟩
  · simp only [match_row, hne', Bool.false_eq_true, if_false, hpick]
    split_ifs <;> rfl
  · intro hth
    simp only [match_row, hne', Bool.false_eq_true, if_false, hpick]
    rw [if_pos hth]
    simp

/-- Witness for C1 amended at a concrete single-candidate row. -/
theorem best_of_top5_witness :
    (∀ a b : String, 0 ≤ zScore a b)
    ∧ (⟨some "A", ["c1"], [7]⟩ : RefRow).cand_ids ≠ []
    ∧ ∃ m ∈ process_extract zScore
        (extract_prinmary_str [] (clean_name (some "A")))
        ((["c1"] : List String).map (fun cid => ((fun _ => none) cid : Option String).getD "")) 5,
      (match_row zScore zScore zScore zScore (fun _ => none) (fun _ => none) (fun _ => none)
          [] 80 ⟨some "A", ["c1"], [7]⟩).name_score
        = some (combined4 zScore zScore zScore
            (extract_prinmary_str [] (clean_name (some "A"))) m) :=
  ⟨fun _ _ => le_refl 0, by decide,
    match best_of_top5 zScore zScore zScore zScore (fun _ => none) (fun _ => none)
        (fun _ => none) [] 80 ⟨some "A", ["c1"], [7]⟩ (fun _ _ => le_refl 0) (by decide) with
    | ⟨m, hm, hscore, _⟩ => ⟨m, hm, hscore⟩⟩

/-- C3: in the Name Matcher output a row's matched identifier is
non-null iff its candidate list is non-empty and the recorded combined
score clears the threshold; moreover whenever the candidate list is
non-empty a score is recorded even if the row stays unmatched. -/
theorem matched_iff_threshold (wr pr ts tset : String → String → ℤ)
    (excl : List String) (refs : List RefRow) (cmp : List CmpRec) (threshold : ℤ) :
    ∀ p ∈ match_by_name wr pr ts tset excl refs cmp threshold,
      (p.2.matched_id.isSome ↔
        (p.1.cand_ids ≠ [] ∧ threshold ≤ p.2.name_score.getD 0))
      ∧ (p.1.cand_ids ≠ [] → ∃ s, p.2.name_score = some s) := by
  intro p hp
  simp only [match_by_name, List.mem_map] at hp
  rcases hp with ⟨r, _, rfl⟩
  by_cases hcand : r.cand_ids = []
  · simp [match_row, hcand]
  · have hne : r.cand_ids.isEmpty = false := by simp [hcand]
    simp only [match_row, hne, Bool.false_eq_true, if_false]
    split_ifs with hth
    · simp [hcand, hth]
    · simp only [Option.isSome_none, Bool.false_eq_true, false_iff, not_and,
        Option.getD_some, ge_iff_le] at *
      constructor
      · intro _
        omega
      · intro _
        exact ⟨_, rfl⟩

/-- Witness for C3 at a concrete matched row (single candidate, zero
scorers, threshold 0 so the row matches with score 0). -/
theorem matched_iff_threshold_witness :
    (⟨⟨some "A", ["c1"], [7]⟩, ⟨some "c1", some 0, some 7, some "Shop", none⟩⟩ :
        RefRow × MatchResult)
      ∈ match_by_name zScore zScore zScore zScore []
          [⟨some "A", ["c1"], [7]⟩] [⟨"c1", some "Shop", none⟩] 0
    ∧ ((⟨some "c1", some 0, some 7, some "Shop", none⟩ : MatchResult).matched_id.isSome ↔
        ((⟨some "A", ["c1"], [7]⟩ : RefRow).cand_ids ≠ []
          ∧ (0 : ℤ) ≤ (⟨some "c1", some 0, some 7, some "Shop", none⟩ :
              MatchResult).name_score.getD 0)) :=
  ⟨by decide,
    (matched_iff_threshold zScore zScore zScore zScore []
      [⟨some "A", ["c1"], [7]⟩] [⟨"c1", some "Shop", none⟩] 0
      ⟨⟨some "A", ["c1"], [7]⟩, ⟨some "c1", some 0, some 7, some "Shop", none⟩⟩
      (by decide)).1⟩

end POI
